import Mathlib

/-!
# Verification of the ai_game snake/pathfinding core

Shallow embedding of the repository `ai_game` (grid snake game with an A*/BFS
pathfinding AI) and proofs of the frozen specification claims.

Conventions of the embedding:
* Python `Tuple[int, int]` positions become `ℤ × ℤ` (Python ints are exact).
* Python `set`/`dict` arguments are embedded as lists used only through
  membership / pointwise lookup, matching how the source uses them.
* Randomness (`random.random`, `random.choice`, random respawn positions) is
  embedded as explicit oracle parameters supplying the drawn values.
* The unbounded `while` loops of the searches are embedded with an explicit
  fuel of `searchFuel = 40*30 + 2` steps; we prove that this fuel is never
  exhausted on the runs the claims are about.
* Python floats only appear as (a) integer-valued g/f-scores, which are exact
  in binary floating point at these magnitudes, embedded as `ℕ`, and (b) the
  Euclidean distance used only for maximisation, embedded as the squared
  distance (`sqrt` is strictly monotone and injective on these values, so the
  comparisons agree with the source).
-/

namespace AiGame

/-! ## Grid geometry (src/utils/constants.py, src/utils/helpers.py) -/

/-- `WINDOW_WIDTH` from src/utils/constants.py. -/
def WINDOW_WIDTH : ℤ := 800

/-- `WINDOW_HEIGHT` from src/utils/constants.py. -/
def WINDOW_HEIGHT : ℤ := 600

/-- `GRID_SIZE` from src/utils/constants.py. -/
def GRID_SIZE : ℤ := 20

/-- `GRID_WIDTH = WINDOW_WIDTH // GRID_SIZE = 40`. -/
def GRID_WIDTH : ℤ := WINDOW_WIDTH / GRID_SIZE

/-- `GRID_HEIGHT = WINDOW_HEIGHT // GRID_SIZE = 30`. -/
def GRID_HEIGHT : ℤ := WINDOW_HEIGHT / GRID_SIZE

/-- A grid position: a pair of Python ints. -/
abbrev Pos := ℤ × ℤ

/-- `is_valid_position` from src/utils/helpers.py:
`0 <= x < GRID_WIDTH and 0 <= y < GRID_HEIGHT`. -/
def is_valid_position (p : Pos) : Bool :=
  0 ≤ p.1 && p.1 < GRID_WIDTH && 0 ≤ p.2 && p.2 < GRID_HEIGHT

/-- `calculate_distance` from src/utils/helpers.py computes the Euclidean
distance `((x1-x2)**2 + (y1-y2)**2) ** 0.5`.  We embed its square (an exact
integer); the source only ever compares distances with `>`, and `sqrt` is
strictly monotone on nonnegative reals, so all comparisons agree. -/
def calculate_distance_sq (p q : Pos) : ℤ :=
  (p.1 - q.1) ^ 2 + (p.2 - q.2) ^ 2

/-- `get_opposite_direction` from src/utils/helpers.py. -/
def get_opposite_direction (d : Pos) : Pos := (-d.1, -d.2)

/-- The Manhattan distance, as computed by `Pathfinding._heuristic`
(src/ai/pathfinding.py): `abs(x1-x2) + abs(y1-y2)`. -/
def manhattan (p q : Pos) : ℕ :=
  (p.1 - q.1).natAbs + (p.2 - q.2).natAbs

/-! ## Directions (class `Direction` in src/utils/constants.py)

The search code iterates `Direction.__dict__.values()` keeping the tuples;
Python class dictionaries preserve the definition order UP, DOWN, LEFT, RIGHT.
-/

/-- `Direction.UP`. -/
def Direction.UP : Pos := (0, -1)

/-- `Direction.DOWN`. -/
def Direction.DOWN : Pos := (0, 1)

/-- `Direction.LEFT`. -/
def Direction.LEFT : Pos := (-1, 0)

/-- `Direction.RIGHT`. -/
def Direction.RIGHT : Pos := (1, 0)

/-- The four direction vectors in the order the source iterates them. -/
def dirList : List Pos := [Direction.UP, Direction.DOWN, Direction.LEFT, Direction.RIGHT]

/-! ## Snake (src/game/snake.py) -/

/-- The `Snake` object's mutable fields. -/
structure Snake where
  body : List Pos
  direction : Pos
  grow_pending : Bool
  deriving Repr, DecidableEq

/-- `Snake.__init__` with the default start position
`(GRID_WIDTH // 2, GRID_HEIGHT // 2)`. -/
def Snake.init : Snake :=
  { body := [(GRID_WIDTH / 2, GRID_HEIGHT / 2)]
    direction := Direction.RIGHT
    grow_pending := false }

/-- `Snake.move`: prepend `head + direction`; pop the tail unless growth is
pending; always leave the growth flag cleared.  The source indexes
`self.body[0]`, which presupposes a non-empty body (Snake's invariant);
on the impossible empty body the embedding returns the snake unchanged. -/
def Snake.move (s : Snake) : Snake :=
  match s.body with
  | [] => s
  | (hx, hy) :: _ =>
    let new_head : Pos := (hx + s.direction.1, hy + s.direction.2)
    if s.grow_pending then
      { s with body := new_head :: s.body, grow_pending := false }
    else
      { s with body := new_head :: s.body.dropLast }

/-- `Snake.change_direction`: no-op on the exact opposite direction. -/
def Snake.change_direction (s : Snake) (new_direction : Pos) : Snake :=
  if new_direction = (-s.direction.1, -s.direction.2) then s
  else { s with direction := new_direction }

/-- `Snake.grow`: set the one-shot growth flag. -/
def Snake.grow (s : Snake) : Snake := { s with grow_pending := true }

/-- `Snake.check_collision`: head out of bounds, or head equal to a later
body segment.  (The empty body cannot occur; the embedding returns false.) -/
def Snake.check_collision (s : Snake) : Bool :=
  match s.body with
  | [] => false
  | head :: rest => !is_valid_position head || head ∈ rest

/-- `Snake.get_head_position` (defaults to `(0,0)` on the impossible empty
body). -/
def Snake.get_head_position (s : Snake) : Pos := s.body.headD (0, 0)

/-- `Snake.get_length`. -/
def Snake.get_length (s : Snake) : ℕ := s.body.length

/-! ## `Pathfinding.get_next_direction` (src/ai/pathfinding.py) -/

/-- Python's `list.index` on positions: the index of the first occurrence,
or the list's length when absent (the caller turns that overflow into the
`ValueError` outcome). -/
def list_index (cur : Pos) : List Pos → ℕ
  | [] => 0
  | x :: xs => if x = cur then 0 else list_index cur xs + 1

/-- `Pathfinding.get_next_direction`: `None` for paths shorter than two cells;
otherwise locate the first occurrence of `current_pos` (Python `list.index`);
if it is not the last element return the coordinate difference to the next
element; `None` when absent (the `ValueError` branch) or last.  (When absent,
`list_index` returns `path.length`, for which the following bound check fails
exactly like the caught `ValueError`.) -/
def get_next_direction (current_pos : Pos) (path : List Pos) : Option Pos :=
  if path.length < 2 then none
  else
    let i := list_index current_pos path
    if h : i + 1 < path.length then
      let next_pos := path.get ⟨i + 1, h⟩
      some (next_pos.1 - current_pos.1, next_pos.2 - current_pos.2)
    else none

/-! ## A* search (Pathfinding.find_path_astar, src/ai/pathfinding.py)

The source loops `while open_set:` with no step bound; termination follows
from the closed set growing inside the finite grid.  The embedding runs on an
explicit fuel of `searchFuel = 40*30 + 2` steps, which we prove sufficient
whenever a claim needs the search to complete.  Python selects
`min(open_set, key=...)`, iterating a `set` whose order is unspecified; the
embedding keeps the open set as an insertion-ordered list and takes the first
minimum.  Every property proved below is independent of this tie-break.
-/

/-- Search fuel: grid cell count plus two. -/
def searchFuel : ℕ := 1202

/-- The mutable state of one `find_path_astar` run: open list, closed set,
and the `came_from` / `g_score` / `f_score` dictionaries (pointwise maps;
`none` means "key absent", which Python reads as `float('inf')` via `.get`). -/
structure AState where
  openSet : List Pos
  closedSet : List Pos
  came_from : Pos → Option Pos
  g_score : Pos → Option ℕ
  f_score : Pos → Option ℕ

/-- `a < b` on f-scores where an absent entry (`none`) is `float('inf')`. -/
def keyLt : Option ℕ → Option ℕ → Bool
  | some a, some b => a < b
  | some _, none => true
  | none, _ => false

/-- Python's `min(x :: xs, key=f)`: first element attaining the minimum. -/
def minBy (f : Pos → Option ℕ) (x : Pos) (xs : List Pos) : Pos :=
  xs.foldl (fun best y => if keyLt (f y) (f best) then y else best) x

/-- The loop of `Pathfinding._reconstruct_path`, building the list
start-first (the source appends parents and reverses at the end). -/
def reconstructAux (came_from : Pos → Option Pos) : ℕ → Pos → List Pos → List Pos
  | 0, cur, acc => cur :: acc
  | fuel + 1, cur, acc =>
    match came_from cur with
    | none => cur :: acc
    | some m => reconstructAux came_from fuel m (cur :: acc)

/-- `Pathfinding._reconstruct_path`. -/
def reconstruct_path (came_from : Pos → Option Pos) (current : Pos) : List Pos :=
  reconstructAux came_from searchFuel current []

/-- One neighbour step of the A* expansion (`for direction in ...` body). -/
def expandDir (goal : Pos) (obstacles : List Pos) (current : Pos) (gc : ℕ)
    (st : AState) (d : Pos) : AState :=
  let neighbor : Pos := (current.1 + d.1, current.2 + d.2)
  if ¬ is_valid_position neighbor ∨ neighbor ∈ st.closedSet ∨ neighbor ∈ obstacles then st
  else
    let tentative := gc + 1
    let skip : Bool := match st.g_score neighbor with
      | some gn => tentative ≥ gn
      | none => false
    if neighbor ∈ st.openSet then
      if skip then st
      else
        { st with
          came_from := fun p => if p = neighbor then some current else st.came_from p
          g_score := fun p => if p = neighbor then some tentative else st.g_score p
          f_score := fun p =>
            if p = neighbor then some (tentative + manhattan neighbor goal) else st.f_score p }
    else
      { st with
        openSet := st.openSet ++ [neighbor]
        came_from := fun p => if p = neighbor then some current else st.came_from p
        g_score := fun p => if p = neighbor then some tentative else st.g_score p
        f_score := fun p =>
          if p = neighbor then some (tentative + manhattan neighbor goal) else st.f_score p }

/-- One full iteration body: close `current` and expand its four neighbours. -/
def expandNode (goal : Pos) (obstacles : List Pos) (st : AState) (current : Pos) : AState :=
  let gc := (st.g_score current).getD 0
  let st1 : AState :=
    { st with openSet := st.openSet.erase current, closedSet := current :: st.closedSet }
  dirList.foldl (expandDir goal obstacles current gc) st1

/-- The `while open_set:` loop of `find_path_astar`. -/
def astarLoop (goal : Pos) (obstacles : List Pos) : ℕ → AState → Option (List Pos)
  | 0, _ => none
  | fuel + 1, st =>
    match st.openSet with
    | [] => none
    | x :: xs =>
      let current := minBy st.f_score x xs
      if current = goal then some (reconstruct_path st.came_from current)
      else astarLoop goal obstacles fuel (expandNode goal obstacles st current)

/-- `Pathfinding.find_path_astar`. -/
def find_path_astar (start goal : Pos) (obstacles : List Pos) : Option (List Pos) :=
  if start = goal then some [start]
  else
    astarLoop goal obstacles searchFuel
      { openSet := [start]
        closedSet := []
        came_from := fun _ => none
        g_score := fun p => if p = start then some 0 else none
        f_score := fun p => if p = start then some (manhattan start goal) else none }

/-! ## BFS search (Pathfinding.find_path_bfs, src/ai/pathfinding.py) -/

/-- The inner `for direction in ...` loop of one BFS iteration.  Note that the
source tests `neighbor == goal` (ending the search) before the
bounds/visited/obstacle test.  `Except.error p` models the early `return p`. -/
def bfsExpand (goal : Pos) (obstacles : List Pos) (current : Pos) (path : List Pos) :
    List Pos → List (Pos × List Pos) → List Pos →
    Except (List Pos) (List (Pos × List Pos) × List Pos)
  | [], queue, visited => Except.ok (queue, visited)
  | d :: ds, queue, visited =>
    let neighbor : Pos := (current.1 + d.1, current.2 + d.2)
    if neighbor = goal then Except.error (path ++ [neighbor])
    else if is_valid_position neighbor ∧ neighbor ∉ visited ∧ neighbor ∉ obstacles then
      bfsExpand goal obstacles current path ds
        (queue ++ [(neighbor, path ++ [neighbor])]) (visited ++ [neighbor])
    else bfsExpand goal obstacles current path ds queue visited

/-- The `while queue:` loop of `find_path_bfs` (FIFO `deque`). -/
def bfsLoop (goal : Pos) (obstacles : List Pos) :
    ℕ → List (Pos × List Pos) → List Pos → Option (List Pos)
  | 0, _, _ => none
  | _ + 1, [], _ => none
  | fuel + 1, (current, path) :: rest, visited =>
    match bfsExpand goal obstacles current path dirList rest visited with
    | Except.error found => some found
    | Except.ok (queue', visited') => bfsLoop goal obstacles fuel queue' visited'

/-- `Pathfinding.find_path_bfs`. -/
def find_path_bfs (start goal : Pos) (obstacles : List Pos) : Option (List Pos) :=
  if start = goal then some [start]
  else bfsLoop goal obstacles searchFuel [(start, [start])] [start]

/-! ## Game state and difficulty constants (src/utils/constants.py) -/

/-- `GameState.MENU`. -/
def GameState.MENU : String := "menu"

/-- `GameState.PLAYING`. -/
def GameState.PLAYING : String := "playing"

/-- `GameState.PAUSED`. -/
def GameState.PAUSED : String := "paused"

/-- `GameState.GAME_OVER`. -/
def GameState.GAME_OVER : String := "game_over"

/-- `AIDifficulty.EASY`. -/
def AIDifficulty.EASY : ℤ := 1

/-- `AIDifficulty.MEDIUM`. -/
def AIDifficulty.MEDIUM : ℤ := 2

/-- `AIDifficulty.HARD`. -/
def AIDifficulty.HARD : ℤ := 3

/-- `AIDifficulty.EXPERT`. -/
def AIDifficulty.EXPERT : ℤ := 4

/-! ## Food entities (src/game/food.py) -/

/-- The fields shared by `Food` and `SpecialFood` objects: position, value and
special-type tag.  `SpecialFood` adds no fields of its own. -/
structure Food where
  position : Pos
  value : ℤ
  special_type : String
  deriving Repr, DecidableEq

/-- `Food.__init__` with the randomly drawn position supplied by the caller
(the oracle for `generate_random_position`). -/
def Food.init (pos : Pos) : Food :=
  { position := pos, value := 1, special_type := "normal" }

/-- `Food.respawn`: places the food at the freshly drawn position (the source
resamples until it avoids `exclude_positions`; the oracle supplies the
accepted draw) and resets value to 1 and type to "normal".  Note that
`SpecialFood` inherits this method unchanged. -/
def Food.respawn (_f : Food) (pos : Pos) : Food :=
  { position := pos, value := 1, special_type := "normal" }

/-! ## Game engine (src/game/game_engine.py) -/

/-- `special_food_duration` (frames a special food stays on the board). -/
def special_food_duration : ℤ := 300

/-- The mutable fields of `GameEngine` (the constant
`special_food_spawn_chance` only feeds the random spawn decision, which the
update oracle supplies directly). -/
structure GameEngine where
  snake : Snake
  food : Food
  score : ℤ
  game_state : String
  ai_enabled : Bool
  ai_difficulty : ℤ
  game_speed : ℤ
  special_food : Option Food
  special_food_timer : ℤ
  deriving Repr, DecidableEq

/-- The random draws one `GameEngine.update` call can consume. -/
structure UpdateOracle where
  new_food_pos : Pos
  spawn_special : Bool
  special_pos : Pos

/-- `GameEngine.__init__` (the food position is the constructor's random
draw). -/
def GameEngine.init (food_pos : Pos) : GameEngine :=
  { snake := Snake.init
    food := Food.init food_pos
    score := 0
    game_state := GameState.MENU
    ai_enabled := false
    ai_difficulty := AIDifficulty.MEDIUM
    game_speed := 15
    special_food := none
    special_food_timer := 0 }

/-- `GameEngine.reset_game`. -/
def GameEngine.reset_game (e : GameEngine) (food_pos : Pos) : GameEngine :=
  { e with
    snake := Snake.init
    food := Food.init food_pos
    score := 0
    special_food := none
    special_food_timer := 0 }

/-- `GameEngine._set_game_speed`: the difficulty → speed table
(`.get(..., 15)` default). -/
def GameEngine.set_game_speed (e : GameEngine) : GameEngine :=
  { e with game_speed :=
      if e.ai_difficulty = AIDifficulty.EASY then 10
      else if e.ai_difficulty = AIDifficulty.MEDIUM then 15
      else if e.ai_difficulty = AIDifficulty.HARD then 20
      else if e.ai_difficulty = AIDifficulty.EXPERT then 25
      else 15 }

/-- `GameEngine.start_game`: rejects an unrecognised difficulty before
touching any state; otherwise resets, stores mode and difficulty, enters
PLAYING and sets the speed. -/
def GameEngine.start_game (e : GameEngine) (ai_enabled : Bool) (difficulty : ℤ)
    (food_pos : Pos) : Except String GameEngine :=
  if difficulty = AIDifficulty.EASY ∨ difficulty = AIDifficulty.MEDIUM ∨
      difficulty = AIDifficulty.HARD ∨ difficulty = AIDifficulty.EXPERT then
    let e1 := e.reset_game food_pos
    let e2 := { e1 with
      ai_enabled := ai_enabled
      ai_difficulty := difficulty
      game_state := GameState.PLAYING }
    Except.ok e2.set_game_speed
  else Except.error "invalid AI difficulty"

/-- `GameEngine.pause_game`. -/
def GameEngine.pause_game (e : GameEngine) : GameEngine :=
  if e.game_state = GameState.PLAYING then { e with game_state := GameState.PAUSED } else e

/-- `GameEngine.resume_game`. -/
def GameEngine.resume_game (e : GameEngine) : GameEngine :=
  if e.game_state = GameState.PAUSED then { e with game_state := GameState.PLAYING } else e

/-- `GameEngine.change_snake_direction`. -/
def GameEngine.change_snake_direction (e : GameEngine) (d : Pos) : GameEngine :=
  if e.game_state = GameState.PLAYING then { e with snake := e.snake.change_direction d } else e

/-- `GameEngine._eat_food`: grow, add the food's value to the score, respawn
the food, and (when no special food is active and the 10% draw succeeds)
spawn a special food.  The source builds the spawned food as `SpecialFood()`
(type "speed_boost", value 2) and immediately calls the inherited
`Food.respawn`, which overwrites value to 1 and type to "normal". -/
def GameEngine.eat_food (e : GameEngine) (o : UpdateOracle) : GameEngine :=
  let e1 := { e with snake := e.snake.grow, score := e.score + e.food.value }
  let e2 := { e1 with food := e1.food.respawn o.new_food_pos }
  if e2.special_food.isNone && o.spawn_special then
    { e2 with
      special_food := some { position := o.special_pos, value := 1, special_type := "normal" }
      special_food_timer := special_food_duration }
  else e2

/-- `GameEngine._apply_special_food_effect` (reads the still-active special
food). -/
def GameEngine.apply_special_food_effect (e : GameEngine) : GameEngine :=
  match e.special_food with
  | none => e
  | some sf =>
    if sf.special_type = "speed_boost" then { e with game_speed := min (e.game_speed + 2) 30 }
    else if sf.special_type = "slow_down" then { e with game_speed := max (e.game_speed - 2) 5 }
    else if sf.special_type = "extra_points" then { e with score := e.score + 10 }
    else e

/-- `GameEngine._eat_special_food`: add its value to the score, apply its
effect, then clear it and zero the timer. -/
def GameEngine.eat_special_food (e : GameEngine) : GameEngine :=
  match e.special_food with
  | none => e
  | some sf =>
    let e1 := { e with score := e.score + sf.value }
    let e2 := e1.apply_special_food_effect
    { e2 with special_food := none, special_food_timer := 0 }

/-- `GameEngine._update_special_food`: decrement the timer of an active
special food; clear the food (the timer keeps its decremented value) once the
timer reaches 0. -/
def GameEngine.update_special_food (e : GameEngine) : GameEngine :=
  match e.special_food with
  | none => e
  | some _ =>
    let t := e.special_food_timer - 1
    if t ≤ 0 then { e with special_food_timer := t, special_food := none }
    else { e with special_food_timer := t }

/-- `GameEngine.update`: no-op unless PLAYING; move the snake; on collision
transition to GAME_OVER and stop; otherwise handle normal food, special food
and the special-food timer. -/
def GameEngine.update (e : GameEngine) (o : UpdateOracle) : GameEngine :=
  if e.game_state ≠ GameState.PLAYING then e
  else
    let snake' := e.snake.move
    let e1 := { e with snake := snake' }
    if snake'.check_collision then { e1 with game_state := GameState.GAME_OVER }
    else
      let e2 := if snake'.get_head_position = e1.food.position then e1.eat_food o else e1
      let e3 :=
        match e2.special_food with
        | some sf => if snake'.get_head_position = sf.position then e2.eat_special_food else e2
        | none => e2
      e3.update_special_food

/-! ## AI agent (src/ai/ai_agent.py) -/

/-- The mutable fields of `AIAgent` that the decision logic reads
(`thinking_depth` and `risk_tolerance` are derived from `difficulty`;
`risk_tolerance` only feeds the random-override draw, which the move oracle
supplies directly). -/
structure AIAgent where
  difficulty : ℤ
  current_path : List Pos
  last_food_position : Option Pos
  deriving Repr, DecidableEq

/-- `AIAgent.__init__`. -/
def AIAgent.init (difficulty : ℤ) : AIAgent :=
  { difficulty := difficulty, current_path := [], last_food_position := none }

/-- `AIAgent.set_difficulty`: store the difficulty and clear the path. -/
def AIAgent.set_difficulty (a : AIAgent) (difficulty : ℤ) : AIAgent :=
  { a with difficulty := difficulty, current_path := [] }

/-- Python truthiness of the `Optional[List]` search results: `None` and the
empty list are falsy. -/
def falsy : Option (List Pos) → Bool
  | none => true
  | some [] => true
  | some (_ :: _) => false

/-- `AIAgent._should_replan_path` (its `special_food_position` parameter is
unused by the source). -/
def should_replan_path (a : AIAgent) (head food_position : Pos) : Bool :=
  a.current_path.isEmpty ||
  !(a.last_food_position = some food_position : Bool) ||
  !(a.current_path.contains head) ||
  a.current_path.length < 3

/-- `AIAgent._is_safe_move`: the move stays on the grid and avoids the
obstacle set. -/
def is_safe_move (head direction : Pos) (obstacles : List Pos) : Bool :=
  let next_pos : Pos := (head.1 + direction.1, head.2 + direction.2)
  is_valid_position next_pos && !(obstacles.contains next_pos)

/-- `AIAgent._get_safe_move`: uniformly pick a safe direction (the oracle
index `k` selects which), falling back to UP when none is safe. -/
def get_safe_move (head : Pos) (obstacles : List Pos) (k : ℕ) : Pos :=
  let safe_directions := dirList.filter (fun d => is_safe_move head d obstacles)
  if safe_directions.isEmpty then Direction.UP
  else safe_directions.getD (k % safe_directions.length) Direction.UP

/-- `AIAgent._add_randomness`: with two or more safe directions pick one
uniformly (oracle index `k`), else keep the current direction. -/
def add_randomness (direction head : Pos) (obstacles : List Pos) (k : ℕ) : Pos :=
  let safe_directions := dirList.filter (fun d => is_safe_move head d obstacles)
  if safe_directions.length ≤ 1 then direction
  else safe_directions.getD (k % safe_directions.length) Direction.UP

/-- The grid cells in the scan order of `AIAgent._get_safe_path`
(`for x in range(GRID_WIDTH): for y in range(GRID_HEIGHT)`). -/
def gridCells : List Pos :=
  (List.range GRID_WIDTH.toNat).flatMap fun x =>
    (List.range GRID_HEIGHT.toNat).map fun y => ((x : ℤ), (y : ℤ))

/-- The scan of `AIAgent._get_safe_path`: the non-obstacle cell maximising
Euclidean distance from the head (strict improvement, so ties keep the
earlier cell; squared distances compare identically). -/
def get_safe_path_scan (head : Pos) (obstacles : List Pos) : Pos :=
  (gridCells.foldl
    (fun acc pos =>
      if pos ∈ obstacles then acc
      else if calculate_distance_sq head pos > acc.1 then (calculate_distance_sq head pos, pos)
      else acc)
    ((0 : ℤ), head)).2

/-- `AIAgent._get_safe_path`: A* towards the most distant free cell, and the
single-cell path `[head]` when even that fails (`path if path else [head]`). -/
def get_safe_path (head : Pos) (obstacles : List Pos) : List Pos :=
  let best_position := get_safe_path_scan head obstacles
  match find_path_astar head best_position obstacles with
  | some (p :: ps) => p :: ps
  | some [] => [head]
  | none => [head]

/-- `AIAgent._plan_path`, returning the stored path (the caller also stores
`food_position` into `last_food_position`): target the special food if
present else the food; try A*, then BFS, then the survival fallback. -/
def plan_path (head food_position : Pos) (special_food_position : Option Pos)
    (obstacles : List Pos) : List Pos :=
  let target := special_food_position.getD food_position
  let p1 := find_path_astar head target obstacles
  let p2 := if falsy p1 then find_path_bfs head target obstacles else p1
  if falsy p2 then get_safe_path head obstacles
  else p2.getD []

/-- The random draws one `get_next_move` call can consume. -/
structure MoveOracle where
  rand_trigger : Bool
  choice1 : ℕ
  choice2 : ℕ

/-- `AIAgent.get_next_move`: the per-tick decision function, returning the
chosen direction and the updated agent state. -/
def AIAgent.get_next_move (a : AIAgent) (snake_body : List Pos) (food_position : Pos)
    (special_food_position : Option Pos) (o : MoveOracle) : Pos × AIAgent :=
  match snake_body with
  | [] => (Direction.RIGHT, a)
  | head :: rest =>
    let obstacles := rest
    let a1 :=
      if should_replan_path a head food_position then
        { a with
          current_path := plan_path head food_position special_food_position obstacles
          last_food_position := some food_position }
      else a
    let next_direction := get_next_direction head a1.current_path
    let d1 :=
      match next_direction with
      | some d => if is_safe_move head d obstacles then d else get_safe_move head obstacles o.choice1
      | none => get_safe_move head obstacles o.choice1
    let d2 := if o.rand_trigger then add_randomness d1 head obstacles o.choice2 else d1
    (d2, a1)

/-- The engine state `start_game` leaves behind: the new state on success,
the unchanged old state on rejection. -/
def GameEngine.start_game_result (e : GameEngine) (ai_enabled : Bool) (difficulty : ℤ)
    (food_pos : Pos) : GameEngine :=
  match e.start_game ai_enabled difficulty food_pos with
  | Except.ok e' => e'
  | Except.error _ => e

/-! # Helper lemmas -/

/-- `list_index` of an absent element is the list's length. -/
theorem list_index_of_not_mem {cur : Pos} {l : List Pos} (h : cur ∉ l) :
    list_index cur l = l.length := by
  induction l with
  | nil => rfl
  | cons x xs ih =>
    simp only [List.mem_cons, not_or] at h
    rw [list_index, if_neg (fun he => h.1 he.symm), ih h.2, List.length_cons]

/-- `list_index` of a present element is a valid index. -/
theorem list_index_lt_length {cur : Pos} {l : List Pos} (h : cur ∈ l) :
    list_index cur l < l.length := by
  induction l with
  | nil => cases h
  | cons x xs ih =>
    rw [list_index]
    by_cases hx : x = cur
    · rw [if_pos hx]
      simp
    · rw [if_neg hx]
      rcases List.mem_cons.1 h with rfl | hm
      · exact absurd rfl hx
      · simpa using ih hm

/-- The element at `list_index` is the sought element. -/
theorem list_index_get {cur : Pos} {l : List Pos} (h : list_index cur l < l.length) :
    l.get ⟨list_index cur l, h⟩ = cur := by
  induction l with
  | nil => cases h
  | cons x xs ih =>
    by_cases hx : x = cur
    · simp [list_index, hx]
    · simp only [list_index, if_neg hx] at h ⊢
      simp only [List.length_cons, Nat.add_lt_add_iff_right] at h
      simpa using ih h

/-- The element Python's `min` picks is a member of the collection. -/
theorem minBy_mem (f : Pos → Option ℕ) (x : Pos) (xs : List Pos) :
    minBy f x xs ∈ x :: xs := by
  unfold minBy
  induction xs generalizing x with
  | nil => simp
  | cons y ys ih =>
    simp only [List.foldl_cons]
    rcases List.mem_cons.1 (ih (if keyLt (f y) (f x) then y else x)) with h | h
    · rw [h]
      split
      · exact List.mem_cons_of_mem _ (List.mem_cons_self _ _)
      · exact List.mem_cons_self _ _
    · exact List.mem_cons_of_mem _ (List.mem_cons_of_mem _ h)

/-- One A* neighbour step never puts an obstacle cell on the open list. -/
theorem expandDir_not_open_of_obstacle (goal z : Pos) (obstacles : List Pos)
    (current : Pos) (gc : ℕ) (st : AState) (d : Pos)
    (hz : z ∉ st.openSet) (hobs : z ∈ obstacles) :
    z ∉ (expandDir goal obstacles current gc st d).openSet := by
  unfold expandDir
  dsimp only
  split
  · exact hz
  · rename_i hcond
    push_neg at hcond
    split
    · split
      · exact hz
      · exact hz
    · intro hmem
      rcases List.mem_append.1 hmem with h1 | h1
      · exact hz h1
      · rw [List.mem_singleton] at h1
        subst h1
        exact hcond.2.2 hobs

/-- A full A* expansion never puts an obstacle cell on the open list. -/
theorem expandNode_not_open_of_obstacle (goal z : Pos) (obstacles : List Pos)
    (st : AState) (current : Pos)
    (hz : z ∉ st.openSet) (hobs : z ∈ obstacles) :
    z ∉ (expandNode goal obstacles st current).openSet := by
  unfold expandNode
  have herase : z ∉ (st.openSet.erase current) := fun hm => hz (List.erase_subset _ _ hm)
  generalize hst1 :
    ({ st with openSet := st.openSet.erase current, closedSet := current :: st.closedSet } : AState)
      = st1
  have hz1 : z ∉ st1.openSet := by rw [← hst1]; exact herase
  clear hst1 herase hz
  induction dirList generalizing st1 with
  | nil => exact hz1
  | cons d ds ih =>
    exact ih _ (expandDir_not_open_of_obstacle goal z obstacles current _ st1 d hz1 hobs)

/-- The A* loop can only ever return a path when the goal reaches the open
list; with the goal in the obstacle set and off the initial open list (any
fuel, any state), the loop returns `none`. -/
theorem astarLoop_none_of_obstacle (goal : Pos) (obstacles : List Pos)
    (hobs : goal ∈ obstacles) :
    ∀ (fuel : ℕ) (st : AState), goal ∉ st.openSet →
      astarLoop goal obstacles fuel st = none := by
  intro fuel
  induction fuel with
  | zero => intro st _; rfl
  | succ n ih =>
    intro st h
    rcases hos : st.openSet with _ | ⟨x, xs⟩
    · rw [astarLoop, hos]
    · rw [astarLoop, hos]
      simp only
      rw [if_neg]
      · exact ih _ (expandNode_not_open_of_obstacle goal goal obstacles st _ h hobs)
      · intro heq
        exact h (hos ▸ (heq ▸ minBy_mem st.f_score x xs))

/-! ## Reachability over the search graph

Both searches walk the 4-connected grid graph whose passable cells are the
valid positions outside the obstacle set; the start cell itself is never
checked.  `ReachFree obstacles start z` states that `z` is reachable from
`start` through passable cells (the start apart). -/

/-- 4-connected reachability through in-bounds, non-obstacle cells. -/
inductive ReachFree (obstacles : List Pos) (start : Pos) : Pos → Prop
  | refl : ReachFree obstacles start start
  | step {b : Pos} (d : Pos) :
      ReachFree obstacles start b → d ∈ dirList →
      is_valid_position (b.1 + d.1, b.2 + d.2) = true →
      (b.1 + d.1, b.2 + d.2) ∉ obstacles →
      ReachFree obstacles start (b.1 + d.1, b.2 + d.2)

/-- A list of cells whose consecutive differences are unit direction
vectors. -/
def isStepChain : List Pos → Bool
  | [] => true
  | [_] => true
  | a :: b :: rest => ((b.1 - a.1, b.2 - a.2) ∈ dirList) && isStepChain (b :: rest)

/-- Appending one unit step to a step chain yields a step chain. -/
theorem isStepChain_append_singleton {p : List Pos} {c n : Pos}
    (hp : isStepChain p = true) (hl : p.getLast? = some c)
    (hd : (n.1 - c.1, n.2 - c.2) ∈ dirList) :
    isStepChain (p ++ [n]) = true := by
  induction p with
  | nil => cases hl
  | cons a rest ih =>
    cases rest with
    | nil =>
      simp only [List.getLast?_singleton, Option.some_inj] at hl
      subst hl
      simpa [isStepChain] using hd
    | cons b rest2 =>
      rw [isStepChain, Bool.and_eq_true] at hp
      obtain ⟨h1, h2⟩ := hp
      have hl2 : (b :: rest2).getLast? = some c := by
        rw [List.getLast?_cons_cons] at hl
        exact hl
      have := ih h2 hl2
      simpa [isStepChain, h1] using this

/-- The invariant of one BFS queue entry `(cell, path)`: the path is a unit
step chain from `start` to `cell`, every cell after the start is in bounds
and free, and the cell is reachable. -/
def EntryInv (start : Pos) (obstacles : List Pos) (e : Pos × List Pos) : Prop :=
  ReachFree obstacles start e.1 ∧
  isStepChain e.2 = true ∧
  e.2.getLast? = some e.1 ∧
  e.2.head? = some start ∧
  ∀ q ∈ e.2.tail, is_valid_position q = true ∧ q ∉ obstacles

/-- What one BFS expansion step can do: an early `return` exposes the goal as
a neighbour of the dequeued cell, and the surviving queue keeps the entry
invariant. -/
theorem bfsExpand_spec (start goal : Pos) (obstacles : List Pos) (c : Pos) (p : List Pos)
    (hc : EntryInv start obstacles (c, p)) :
    ∀ (ds : List Pos) (queue : List (Pos × List Pos)) (visited : List Pos),
      (∀ e ∈ queue, EntryInv start obstacles e) →
      (∀ d ∈ ds, d ∈ dirList) →
      (∀ found, bfsExpand goal obstacles c p ds queue visited = Except.error found →
        ∃ d ∈ dirList, goal = (c.1 + d.1, c.2 + d.2) ∧ found = p ++ [goal]) ∧
      (∀ q' v', bfsExpand goal obstacles c p ds queue visited = Except.ok (q', v') →
        ∀ e ∈ q', EntryInv start obstacles e) := by
  intro ds
  induction ds with
  | nil =>
    intro queue visited hq _
    constructor
    · intro found hfound
      cases hfound
    · intro q' v' hok
      cases hok
      exact hq
  | cons d ds ih =>
    intro queue visited hq hds
    have hdmem : d ∈ dirList := hds d (List.mem_cons_self _ _)
    have hds' : ∀ x ∈ ds, x ∈ dirList := fun x hx => hds x (List.mem_cons_of_mem _ hx)
    rw [bfsExpand]
    split
    · -- neighbor = goal: early return
      rename_i hgoal
      constructor
      · intro found hfound
        cases hfound
        exact ⟨d, hdmem, hgoal ▸ ⟨rfl, rfl⟩⟩
      · intro q' v' hok
        cases hok
    · split
      · -- enqueue the neighbor
        rename_i hcond
        refine ih (queue ++ [((c.1 + d.1, c.2 + d.2), p ++ [(c.1 + d.1, c.2 + d.2)])]) _ ?_ hds'
        intro e he
        rcases List.mem_append.1 he with h1 | h1
        · exact hq e h1
        · rw [List.mem_singleton] at h1
          subst h1
          obtain ⟨hreach, hchain, hlast, hhead, htail⟩ := hc
          have hne : p ≠ [] := by
            intro hnil
            rw [hnil] at hlast
            cases hlast
          refine ⟨ReachFree.step d hreach hdmem hcond.1 hcond.2.2, ?_, ?_, ?_, ?_⟩
          · exact isStepChain_append_singleton hchain hlast (by simpa using hdmem)
          · simp
          · rcases p with _ | ⟨a, rest⟩
            · exact absurd rfl hne
            · simpa using hhead
          · intro q hqmem
            rcases p with _ | ⟨a, rest⟩
            · exact absurd rfl hne
            · simp only [List.cons_append, List.tail_cons] at hqmem
              rcases List.mem_append.1 hqmem with h2 | h2
              · exact htail q (by simpa using h2)
              · rw [List.mem_singleton] at h2
                subst h2
                exact ⟨hcond.1, hcond.2.2⟩
      · exact ih queue visited hq hds'

/-- If the BFS loop returns a path, that path is a unit step chain obtained
by appending the goal to a path that reaches a free cell next to the goal. -/
theorem bfsLoop_some_spec (start goal : Pos) (obstacles : List Pos) :
    ∀ (fuel : ℕ) (queue : List (Pos × List Pos)) (visited : List Pos),
      (∀ e ∈ queue, EntryInv start obstacles e) →
      ∀ p, bfsLoop goal obstacles fuel queue visited = some p →
      ∃ c pc d, EntryInv start obstacles (c, pc) ∧ d ∈ dirList ∧
        goal = (c.1 + d.1, c.2 + d.2) ∧ p = pc ++ [goal] := by
  intro fuel
  induction fuel with
  | zero => intro queue visited _ p hp; cases hp
  | succ n ih =>
    intro queue visited hq p hp
    rcases queue with _ | ⟨⟨c, pc⟩, rest⟩
    · rw [bfsLoop] at hp
      cases hp
    · rw [bfsLoop] at hp
      have hcent : EntryInv start obstacles (c, pc) := hq _ (List.mem_cons_self _ _)
      have hrest : ∀ e ∈ rest, EntryInv start obstacles e :=
        fun e he => hq e (List.mem_cons_of_mem _ he)
      have hspec := bfsExpand_spec start goal obstacles c pc hcent dirList rest visited hrest
        (fun d hd => hd)
      rcases hres : bfsExpand goal obstacles c pc dirList rest visited with found | ⟨q', v'⟩
      · rw [hres] at hp
        simp only [Option.some_inj] at hp
        obtain ⟨d, hdmem, hgoal, hfound⟩ := hspec.1 found hres
        exact ⟨c, pc, d, hcent, hdmem, hgoal, by rw [← hp, hfound]⟩
      · rw [hres] at hp
        exact ih q' v' (hspec.2 q' v' hres) p hp

/-! ## The A* bookkeeping invariant

`CameFromInv` collects what an A* state always satisfies: `g_score` is 0 at
the start and positive elsewhere, `came_from` links every scored node back
towards the start through unit steps onto in-bounds free cells, parents are
closed (so their scores are final), scores are bounded by the closed-set
size, the open list is scored and reachable, and the start is never lost. -/

structure CameFromInv (start : Pos) (obstacles : List Pos) (st : AState) : Prop where
  g_start : st.g_score start = some 0
  cf_start : st.came_from start = none
  open_g : ∀ n ∈ st.openSet, st.g_score n ≠ none
  cf_g : ∀ n m, st.came_from n = some m →
    ∃ km, st.g_score m = some km ∧ st.g_score n = some (km + 1)
  cf_adj : ∀ n m, st.came_from n = some m →
    ((n.1 - m.1, n.2 - m.2) ∈ dirList) ∧ is_valid_position n = true ∧ n ∉ obstacles
  g_cf : ∀ n k, st.g_score n = some k → n ≠ start → st.came_from n ≠ none
  cf_closed : ∀ n m, st.came_from n = some m → m ∈ st.closedSet
  g_bound : ∀ n k, st.g_score n = some k → k ≤ st.closedSet.length
  open_reach : ∀ n ∈ st.openSet, ReachFree obstacles start n
  start_mem : start ∈ st.openSet ∨ start ∈ st.closedSet

/-- One A* neighbour step preserves the bookkeeping invariant.  The
hypotheses record that `current` is already closed with final score `gc`, one
less than the closed-set size. -/
theorem expandDir_inv (start goal : Pos) (obstacles : List Pos) (current : Pos) (gc : ℕ)
    (st : AState) (d : Pos)
    (inv : CameFromInv start obstacles st)
    (hgc : st.g_score current = some gc)
    (hccl : current ∈ st.closedSet)
    (hreach : ReachFree obstacles start current)
    (hgcb : gc + 1 ≤ st.closedSet.length)
    (hd : d ∈ dirList) :
    CameFromInv start obstacles (expandDir goal obstacles current gc st d) ∧
    (expandDir goal obstacles current gc st d).g_score current = some gc ∧
    (expandDir goal obstacles current gc st d).closedSet = st.closedSet ∧
    (expandDir goal obstacles current gc st d).openSet.length ≥ st.openSet.length := by
  unfold expandDir
  dsimp only
  split
  · exact ⟨inv, hgc, rfl, le_refl _⟩
  · rename_i hcond
    push_neg at hcond
    obtain ⟨hvalid, hncl, hnobs⟩ := hcond
    have hnec : (current.1 + d.1, current.2 + d.2) ≠ current := by
      intro h
      rw [← h] at hccl
      exact hncl hccl
    split
    · -- the neighbour is already open
      split
      · exact ⟨inv, hgc, rfl, le_refl _⟩
      · -- relaxation
        rename_i hopen hskip
        have hnes : (current.1 + d.1, current.2 + d.2) ≠ start := by
          intro h
          rw [h, inv.g_start] at hskip
          simp at hskip
        refine ⟨?_, ?_, rfl, le_refl _⟩
        · constructor
          · simpa [Ne.symm hnes] using inv.g_start
          · simpa [Ne.symm hnes] using inv.cf_start
          · intro n hn
            by_cases hn2 : n = (current.1 + d.1, current.2 + d.2)
            · simp [hn2]
            · simpa [hn2] using inv.open_g n hn
          · intro n m hm
            by_cases hn2 : n = (current.1 + d.1, current.2 + d.2)
            · rw [hn2] at hm ⊢
              have hm2 : current = m := by simpa using hm
              subst hm2
              have hmc : current ≠ (current.1 + d.1, current.2 + d.2) := fun h => hnec h.symm
              exact ⟨gc, by simpa [hmc] using hgc, by simp⟩
            · simp only [if_neg hn2] at hm
              obtain ⟨km, h1, h2⟩ := inv.cf_g n m hm
              have hmne : m ≠ (current.1 + d.1, current.2 + d.2) := by
                intro h
                exact hncl (h ▸ inv.cf_closed n m hm)
              exact ⟨km, by simpa [hmne] using h1, by simpa [hn2] using h2⟩
          · intro n m hm
            by_cases hn2 : n = (current.1 + d.1, current.2 + d.2)
            · rw [hn2] at hm ⊢
              have hm2 : current = m := by simpa using hm
              subst hm2
              refine ⟨?_, hvalid, hnobs⟩
              simpa using hd
            · simp only [if_neg hn2] at hm
              exact inv.cf_adj n m hm
          · intro n k hk hns
            by_cases hn2 : n = (current.1 + d.1, current.2 + d.2)
            · simp [hn2]
            · simp only [if_neg hn2] at hk ⊢
              exact inv.g_cf n k hk hns
          · intro n m hm
            by_cases hn2 : n = (current.1 + d.1, current.2 + d.2)
            · rw [hn2] at hm
              have hm2 : current = m := by simpa using hm
              subst hm2
              exact hccl
            · simp only [if_neg hn2] at hm
              exact inv.cf_closed n m hm
          · intro n k hk
            by_cases hn2 : n = (current.1 + d.1, current.2 + d.2)
            · rw [hn2] at hk
              have hk2 : gc + 1 = k := by simpa using hk
              show k ≤ st.closedSet.length
              omega
            · simp only [if_neg hn2] at hk
              exact inv.g_bound n k hk
          · exact inv.open_reach
          · exact inv.start_mem
        · simpa [Ne.symm hnec] using hgc
    · -- the neighbour is appended to the open list
      rename_i hopen
      have hnes : (current.1 + d.1, current.2 + d.2) ≠ start := by
        intro h
        rcases inv.start_mem with hs | hs
        · exact hopen (h ▸ hs)
        · exact hncl (h ▸ hs)
      refine ⟨?_, ?_, rfl, by simp⟩
      · constructor
        · simpa [Ne.symm hnes] using inv.g_start
        · simpa [Ne.symm hnes] using inv.cf_start
        · intro n hn
          by_cases hn2 : n = (current.1 + d.1, current.2 + d.2)
          · simp [hn2]
          · rcases List.mem_append.1 hn with h | h
            · simpa [hn2] using inv.open_g n h
            · rw [List.mem_singleton] at h
              exact absurd h hn2
        · intro n m hm
          by_cases hn2 : n = (current.1 + d.1, current.2 + d.2)
          · rw [hn2] at hm ⊢
            have hm2 : current = m := by simpa using hm
            subst hm2
            have hmc : current ≠ (current.1 + d.1, current.2 + d.2) := fun h => hnec h.symm
            exact ⟨gc, by simpa [hmc] using hgc, by simp⟩
          · simp only [if_neg hn2] at hm
            obtain ⟨km, h1, h2⟩ := inv.cf_g n m hm
            have hmne : m ≠ (current.1 + d.1, current.2 + d.2) := by
              intro h
              exact hncl (h ▸ inv.cf_closed n m hm)
            exact ⟨km, by simpa [hmne] using h1, by simpa [hn2] using h2⟩
        · intro n m hm
          by_cases hn2 : n = (current.1 + d.1, current.2 + d.2)
          · rw [hn2] at hm ⊢
            have hm2 : current = m := by simpa using hm
            subst hm2
            refine ⟨?_, hvalid, hnobs⟩
            simpa using hd
          · simp only [if_neg hn2] at hm
            exact inv.cf_adj n m hm
        · intro n k hk hns
          by_cases hn2 : n = (current.1 + d.1, current.2 + d.2)
          · simp [hn2]
          · simp only [if_neg hn2] at hk ⊢
            exact inv.g_cf n k hk hns
        · intro n m hm
          by_cases hn2 : n = (current.1 + d.1, current.2 + d.2)
          · rw [hn2] at hm
            have hm2 : current = m := by simpa using hm
            subst hm2
            exact hccl
          · simp only [if_neg hn2] at hm
            exact inv.cf_closed n m hm
        · intro n k hk
          by_cases hn2 : n = (current.1 + d.1, current.2 + d.2)
          · rw [hn2] at hk
            have hk2 : gc + 1 = k := by simpa using hk
            show k ≤ st.closedSet.length
            omega
          · simp only [if_neg hn2] at hk
            exact inv.g_bound n k hk
        · intro n hn
          rcases List.mem_append.1 hn with h | h
          · exact inv.open_reach n h
          · rw [List.mem_singleton] at h
            subst h
            exact ReachFree.step d hreach hd hvalid hnobs
        · rcases inv.start_mem with hs | hs
          · exact Or.inl (List.mem_append_left _ hs)
          · exact Or.inr hs
      · simpa [Ne.symm hnec] using hgc

/-- Closing the selected node and expanding its four neighbours preserves
the bookkeeping invariant and pushes it onto the closed set. -/
theorem expandNode_inv (start goal : Pos) (obstacles : List Pos) (st : AState) (current : Pos)
    (inv : CameFromInv start obstacles st)
    (hcuro : current ∈ st.openSet) :
    CameFromInv start obstacles (expandNode goal obstacles st current) ∧
    (expandNode goal obstacles st current).closedSet = current :: st.closedSet := by
  obtain ⟨gc, hgc⟩ : ∃ k, st.g_score current = some k := by
    rcases h : st.g_score current with _ | k
    · exact absurd h (inv.open_g current hcuro)
    · exact ⟨k, rfl⟩
  have hreach : ReachFree obstacles start current := inv.open_reach current hcuro
  have hgb : gc ≤ st.closedSet.length := inv.g_bound current gc hgc
  have hst1 : CameFromInv start obstacles
      { st with openSet := st.openSet.erase current, closedSet := current :: st.closedSet } := by
    constructor
    · exact inv.g_start
    · exact inv.cf_start
    · intro n hn
      exact inv.open_g n (List.erase_subset _ _ hn)
    · exact inv.cf_g
    · exact inv.cf_adj
    · exact inv.g_cf
    · intro n m hm
      exact List.mem_cons_of_mem _ (inv.cf_closed n m hm)
    · intro n k hk
      have := inv.g_bound n k hk
      simp only [List.length_cons]
      omega
    · intro n hn
      exact inv.open_reach n (List.erase_subset _ _ hn)
    · by_cases hsc : start = current
      · exact Or.inr (hsc ▸ List.mem_cons_self _ _)
      · rcases inv.start_mem with hs | hs
        · exact Or.inl ((List.mem_erase_of_ne hsc).2 hs)
        · exact Or.inr (List.mem_cons_of_mem _ hs)
  have main : ∀ (ds : List Pos), (∀ d ∈ ds, d ∈ dirList) →
      ∀ st1 : AState, CameFromInv start obstacles st1 →
        st1.g_score current = some gc →
        st1.closedSet = current :: st.closedSet →
        CameFromInv start obstacles (ds.foldl (expandDir goal obstacles current gc) st1) ∧
        (ds.foldl (expandDir goal obstacles current gc) st1).closedSet =
          current :: st.closedSet := by
    intro ds
    induction ds with
    | nil => intro _ st1 h1 _ h3; exact ⟨h1, h3⟩
    | cons d ds ih =>
      intro hds st1 h1 h2 h3
      have hccl : current ∈ st1.closedSet := by
        rw [h3]; exact List.mem_cons_self _ _
      have hgcb : gc + 1 ≤ st1.closedSet.length := by
        rw [h3]; simp only [List.length_cons]; omega
      obtain ⟨hinv', hg', hcl', _⟩ := expandDir_inv start goal obstacles current gc st1 d h1 h2
        hccl hreach hgcb (hds d (List.mem_cons_self _ _))
      exact ih (fun x hx => hds x (List.mem_cons_of_mem _ hx)) _ hinv' hg' (hcl'.trans h3)
  have hmain := main dirList (fun d hd => hd)
    { st with openSet := st.openSet.erase current, closedSet := current :: st.closedSet }
    hst1 hgc rfl
  have hgd : (st.g_score current).getD 0 = gc := by rw [hgc]; rfl
  unfold expandNode
  dsimp only
  rw [hgd]
  exact hmain

/-- Unwinding `came_from` from a node with score `k` (fuel permitting) yields
a step chain of `k + 1` cells from the start to that node, through in-bounds
free cells. -/
theorem reconstructAux_spec (start : Pos) (obstacles : List Pos) (st : AState)
    (inv : CameFromInv start obstacles st) :
    ∀ (k : ℕ) (n : Pos) (acc : List Pos) (fuel : ℕ), st.g_score n = some k → k ≤ fuel →
      ∃ l : List Pos, reconstructAux st.came_from fuel n acc = (l ++ [n]) ++ acc ∧
        (l ++ [n]).head? = some start ∧ (l ++ [n]).length = k + 1 ∧
        isStepChain (l ++ [n]) = true ∧
        (∀ q ∈ (l ++ [n]).tail, is_valid_position q = true ∧ q ∉ obstacles) := by
  intro k
  induction k with
  | zero =>
    intro n acc fuel hg _
    have hns : n = start := by
      by_contra hne
      rcases hcf : st.came_from n with _ | m
      · exact inv.g_cf n 0 hg hne hcf
      · obtain ⟨km, _, h2⟩ := inv.cf_g n m hcf
        rw [hg] at h2
        cases h2
    subst hns
    have hcf := inv.cf_start
    refine ⟨[], ?_, rfl, rfl, rfl, by intro q hq; cases hq⟩
    cases fuel with
    | zero => rfl
    | succ f =>
      rw [reconstructAux, hcf]
      simp
  | succ k ih =>
    intro n acc fuel hg hfuel
    have hns : n ≠ start := by
      intro h
      rw [h, inv.g_start] at hg
      cases hg
    rcases hcf : st.came_from n with _ | m
    · exact absurd hcf (inv.g_cf n (k + 1) hg hns)
    · obtain ⟨km, hgm, hgn⟩ := inv.cf_g n m hcf
      have hkm : km = k := by
        rw [hg] at hgn
        injection hgn with h
        omega
      subst hkm
      obtain ⟨hadj, hval, hobs⟩ := inv.cf_adj n m hcf
      cases fuel with
      | zero => omega
      | succ f =>
        obtain ⟨l', hrec, hhead, hlen, hchain, htail⟩ := ih m (n :: acc) f hgm (by omega)
        refine ⟨l' ++ [m], ?_, ?_, ?_, ?_, ?_⟩
        · rw [reconstructAux, hcf]
          dsimp only
          rw [hrec]
          simp
        · rw [List.head?_append, hhead]
          rfl
        · simp only [List.length_append, List.length_singleton] at hlen ⊢
          omega
        · exact isStepChain_append_singleton hchain (List.getLast?_concat l') hadj
        · intro q hq
          rcases hl' : l' ++ [m] with _ | ⟨a, rest⟩
          · simp at hl'
          · rw [hl'] at hq htail
            simp only [List.cons_append, List.tail_cons] at hq
            rcases List.mem_append.1 hq with h | h
            · exact htail q (by simpa using h)
            · rw [List.mem_singleton] at h
              subst h
              exact ⟨hval, hobs⟩

/-- If the A* loop returns a path, it is a unit step chain from the start to
the goal through in-bounds free cells (so the goal is reachable). -/
theorem astarLoop_some_spec (start goal : Pos) (obstacles : List Pos) :
    ∀ (fuel : ℕ) (st : AState), CameFromInv start obstacles st →
      st.closedSet.length + fuel ≤ searchFuel →
      ∀ p, astarLoop goal obstacles fuel st = some p →
        p.head? = some start ∧ p.getLast? = some goal ∧ isStepChain p = true ∧
        (∀ q ∈ p.tail, is_valid_position q = true ∧ q ∉ obstacles) ∧
        ReachFree obstacles start goal := by
  intro fuel
  induction fuel with
  | zero => intro st _ _ p hp; cases hp
  | succ n ih =>
    intro st inv hbound p hp
    rcases hos : st.openSet with _ | ⟨x, xs⟩
    · rw [astarLoop, hos] at hp
      cases hp
    · rw [astarLoop, hos] at hp
      dsimp only at hp
      have hcur_mem : minBy st.f_score x xs ∈ st.openSet := by
        rw [hos]; exact minBy_mem _ _ _
      by_cases hg : minBy st.f_score x xs = goal
      · rw [if_pos hg] at hp
        obtain ⟨k, hk⟩ : ∃ k, st.g_score (minBy st.f_score x xs) = some k := by
          rcases h : st.g_score (minBy st.f_score x xs) with _ | k
          · exact absurd h (inv.open_g _ hcur_mem)
          · exact ⟨k, rfl⟩
        rw [hg] at hk hcur_mem
        have hkb : k ≤ searchFuel := by
          have := inv.g_bound goal k hk
          omega
        obtain ⟨l, hrec, hhead, hlen, hchain, htail⟩ :=
          reconstructAux_spec start obstacles st inv k goal [] searchFuel hk hkb
        have hpval : p = l ++ [goal] := by
          have := hp.symm
          rw [Option.some_inj] at this
          rw [this]
          unfold reconstruct_path
          rw [hg, hrec]
          simp
        subst hpval
        refine ⟨hhead, List.getLast?_concat l, hchain, htail, ?_⟩
        exact inv.open_reach goal hcur_mem
      · rw [if_neg hg] at hp
        obtain ⟨hinv', hcl'⟩ := expandNode_inv start goal obstacles st _ inv hcur_mem
        refine ih _ hinv' ?_ p hp
        rw [hcl']
        simp only [List.length_cons]
        omega

/-- A successful `find_path_astar` run returns a non-empty unit step chain
from the start to the goal whose cells after the start are in bounds and
free; in particular the goal is then reachable. -/
theorem astar_some_spec (start goal : Pos) (obstacles : List Pos) (p : List Pos)
    (hp : find_path_astar start goal obstacles = some p) :
    p.head? = some start ∧ p.getLast? = some goal ∧ isStepChain p = true ∧
    (∀ q ∈ p.tail, is_valid_position q = true ∧ q ∉ obstacles) ∧
    ReachFree obstacles start goal := by
  unfold find_path_astar at hp
  by_cases hsg : start = goal
  · rw [if_pos hsg] at hp
    rw [Option.some_inj] at hp
    subst hp
    subst hsg
    refine ⟨rfl, rfl, rfl, ?_, ReachFree.refl⟩
    intro q hq
    cases hq
  · rw [if_neg hsg] at hp
    refine astarLoop_some_spec start goal obstacles searchFuel _ ?_ (by simp) p hp
    constructor
    · simp
    · rfl
    · intro n hn
      rw [List.mem_singleton] at hn
      subst hn
      simp
    · intro n m hm
      cases hm
    · intro n m hm
      cases hm
    · intro n k hk hns
      dsimp only at hk
      rw [if_neg hns] at hk
      cases hk
    · intro n m hm
      cases hm
    · intro n k hk
      dsimp only at hk
      by_cases hn2 : n = start
      · rw [if_pos hn2] at hk
        injection hk with h
        omega
      · rw [if_neg hn2] at hk
        cases hk
    · intro n hn
      rw [List.mem_singleton] at hn
      subst hn
      exact ReachFree.refl
    · exact Or.inl (List.mem_singleton.2 rfl)

/-- A* returns no path whenever the goal is not reachable from the start
through free in-bounds cells. -/
theorem astar_none_of_unreachable (start goal : Pos) (obstacles : List Pos)
    (hun : ¬ ReachFree obstacles start goal) :
    find_path_astar start goal obstacles = none := by
  rcases hres : find_path_astar start goal obstacles with _ | p
  · rfl
  · exact absurd (astar_some_spec start goal obstacles p hres).2.2.2.2 hun

/-- BFS returns no path whenever the goal is a free in-bounds cell that is
not reachable from the start. -/
theorem bfs_none_of_unreachable (start goal : Pos) (obstacles : List Pos)
    (hval : is_valid_position goal = true) (hfree : goal ∉ obstacles)
    (hun : ¬ ReachFree obstacles start goal) :
    find_path_bfs start goal obstacles = none := by
  unfold find_path_bfs
  have hne : start ≠ goal := by
    intro heq
    apply hun
    rw [← heq]
    exact ReachFree.refl
  rw [if_neg hne]
  rcases hres : bfsLoop goal obstacles searchFuel [(start, [start])] [start] with _ | p
  · rfl
  · exfalso
    have hinit : ∀ e ∈ [(start, [start])], EntryInv start obstacles e := by
      intro e he
      rw [List.mem_singleton] at he
      subst he
      exact ⟨ReachFree.refl, rfl, rfl, rfl, by intro q hq; cases hq⟩
    obtain ⟨c, pc, d, hent, hd, hgoal, _⟩ :=
      bfsLoop_some_spec start goal obstacles searchFuel _ _ hinit p hres
    have := ReachFree.step d hent.1 hd (hgoal ▸ hval) (hgoal ▸ hfree)
    exact hun (hgoal ▸ this)

/-- A cell reached through free cells is the start or itself free. -/
theorem reach_eq_or_not_mem {obstacles : List Pos} {start z : Pos}
    (h : ReachFree obstacles start z) : z = start ∨ z ∉ obstacles := by
  cases h with
  | refl => exact Or.inl rfl
  | step d hb hd hv hno => exact Or.inr hno

/-- `_get_safe_path` always hands back a non-empty path starting at the
head: a successful A* run starts at the head, and the fallback is `[head]`
itself. -/
theorem get_safe_path_head (head : Pos) (obstacles : List Pos) :
    get_safe_path head obstacles ≠ [] ∧
    (get_safe_path head obstacles).head? = some head := by
  unfold get_safe_path
  dsimp only
  rcases hres : find_path_astar head (get_safe_path_scan head obstacles) obstacles with _ | p
  · exact ⟨by simp, rfl⟩
  · rcases p with _ | ⟨a, rest⟩
    · exact ⟨by simp, rfl⟩
    · have hspec := astar_some_spec head _ obstacles _ hres
      exact ⟨by simp, hspec.1⟩

/-- When both searches fail, `_plan_path` stores the survival-fallback
path. -/
theorem plan_path_of_search_failure (head food_position : Pos)
    (special_food_position : Option Pos) (obstacles : List Pos)
    (ha : find_path_astar head (special_food_position.getD food_position) obstacles = none)
    (hb : find_path_bfs head (special_food_position.getD food_position) obstacles = none) :
    plan_path head food_position special_food_position obstacles =
      get_safe_path head obstacles := by
  simp [plan_path, falsy, ha, hb]

/-- **C3, counterexample.** The claim "whenever no 4-connected free path to
the goal exists, both searches return no path" fails at head (0,0),
target (1,0), obstacles {(1,0)}: the target is fenced off (it is itself an
obstacle, so no free path reaches it), yet BFS returns a path onto it. -/
theorem unreachable_goal_bfs_counterexample :
    (¬ ReachFree [((1 : ℤ), (0 : ℤ))] (0, 0) (1, 0)) ∧
    find_path_bfs (0, 0) (1, 0) [(1, 0)] = some [(0, 0), (1, 0)] := by
  constructor
  · intro h
    rcases reach_eq_or_not_mem h with h1 | h1
    · exact absurd h1 (by decide)
    · exact h1 (by decide)
  · decide

/-- **C3, amended.** For every head, target (the special food if present,
else the food) and obstacle set such that the target is an in-bounds
non-obstacle cell with no 4-connected free path from the head, both searches
return no path, and `_plan_path` then stores a non-empty survival path whose
first element is the head (degrading to `[head]` when even the fallback
search fails); no error is surfaced. -/
theorem searches_unreachable_agent_fallback
    (head food_position : Pos) (special_food_position : Option Pos) (obstacles : List Pos)
    (hval : is_valid_position (special_food_position.getD food_position) = true)
    (hfree : special_food_position.getD food_position ∉ obstacles)
    (hun : ¬ ReachFree obstacles head (special_food_position.getD food_position)) :
    find_path_astar head (special_food_position.getD food_position) obstacles = none ∧
    find_path_bfs head (special_food_position.getD food_position) obstacles = none ∧
    plan_path head food_position special_food_position obstacles ≠ [] ∧
    (plan_path head food_position special_food_position obstacles).head? = some head := by
  have ha := astar_none_of_unreachable head _ obstacles hun
  have hb := bfs_none_of_unreachable head _ obstacles hval hfree hun
  have hplan := plan_path_of_search_failure head food_position special_food_position obstacles ha hb
  rw [hplan]
  exact ⟨ha, hb, (get_safe_path_head head obstacles).1, (get_safe_path_head head obstacles).2⟩

/-- Inside the pocket fenced by obstacles at (1,0) and (0,1), the only cell
reachable from (0,0) is (0,0) itself. -/
theorem pocket_reach (z : Pos)
    (h : ReachFree [((1 : ℤ), (0 : ℤ)), (0, 1)] (0, 0) z) : z = (0, 0) := by
  induction h with
  | refl => rfl
  | step d hb hd hv hno ih =>
    subst ih
    simp only [dirList, Direction.UP, Direction.DOWN, Direction.LEFT, Direction.RIGHT,
      List.mem_cons, List.not_mem_nil, or_false] at hd
    rcases hd with rfl | rfl | rfl | rfl
    · exact absurd hv (by decide)
    · exact absurd (by decide) hno
    · exact absurd hv (by decide)
    · exact absurd (by decide) hno

/-- Witness for the amended C3: the head (0,0) boxed in by obstacles at
(1,0) and (0,1) cannot reach the food at (5,5). -/
theorem searches_unreachable_agent_fallback_witness :
    is_valid_position ((Option.getD none ((5 : ℤ), (5 : ℤ)))) = true ∧
    (Option.getD none ((5 : ℤ), (5 : ℤ))) ∉ [((1 : ℤ), (0 : ℤ)), (0, 1)] ∧
    find_path_astar (0, 0) (Option.getD none ((5 : ℤ), (5 : ℤ))) [(1, 0), (0, 1)] = none ∧
    find_path_bfs (0, 0) (Option.getD none ((5 : ℤ), (5 : ℤ))) [(1, 0), (0, 1)] = none ∧
    plan_path (0, 0) (5, 5) none [(1, 0), (0, 1)] ≠ [] ∧
    (plan_path (0, 0) (5, 5) none [(1, 0), (0, 1)]).head? = some (0, 0) := by
  have h := searches_unreachable_agent_fallback (0, 0) (5, 5) none [(1, 0), (0, 1)]
    (by decide) (by decide)
    (fun hr => absurd (pocket_reach _ hr) (by decide))
  exact ⟨by decide, by decide, h.1, h.2.1, h.2.2.1, h.2.2.2⟩

/-- Consecutive cells of a step chain differ by a unit direction vector. -/
theorem isStepChain_consec :
    ∀ {path : List Pos}, isStepChain path = true →
    ∀ (j : ℕ) (hj : j + 1 < path.length),
      ((path.get ⟨j + 1, hj⟩).1 - (path.get ⟨j, Nat.lt_of_succ_lt hj⟩).1,
       (path.get ⟨j + 1, hj⟩).2 - (path.get ⟨j, Nat.lt_of_succ_lt hj⟩).2) ∈ dirList := by
  intro path
  induction path with
  | nil =>
    intro _ j hj
    simp at hj
  | cons a rest ih =>
    intro h j hj
    rcases rest with _ | ⟨b, rest2⟩
    · simp at hj
    · rw [isStepChain, Bool.and_eq_true] at h
      obtain ⟨h1, h2⟩ := h
      rcases j with _ | j
      · simpa using h1
      · have hj' : j + 1 < (b :: rest2).length := by
          simpa using hj
        have := ih h2 j hj'
        simpa using this

/-- A direction extracted from a step chain is a unit direction vector. -/
theorem get_next_direction_mem_of_chain {cur : Pos} {path : List Pos}
    (hchain : isStepChain path = true) {d : Pos}
    (hd : get_next_direction cur path = some d) : d ∈ dirList := by
  unfold get_next_direction at hd
  split at hd
  · cases hd
  · dsimp only at hd
    split at hd
    · rename_i hlt
      rw [Option.some_inj] at hd
      subst hd
      have hcur : path.get ⟨list_index cur path, Nat.lt_of_succ_lt hlt⟩ = cur :=
        list_index_get (Nat.lt_of_succ_lt hlt)
      have := isStepChain_consec hchain (list_index cur path) hlt
      rw [hcur] at this
      exact this
    · cases hd

/-- The initial BFS queue satisfies the entry invariant. -/
theorem bfs_init_inv (start : Pos) (obstacles : List Pos) :
    ∀ e ∈ [(start, [start])], EntryInv start obstacles e := by
  intro e he
  rw [List.mem_singleton] at he
  subst he
  exact ⟨ReachFree.refl, rfl, rfl, rfl, by intro q hq; cases hq⟩

/-- A successful `find_path_bfs` run returns a unit step chain. -/
theorem bfs_some_chain (start goal : Pos) (obstacles : List Pos) (p : List Pos)
    (hp : find_path_bfs start goal obstacles = some p) : isStepChain p = true := by
  unfold find_path_bfs at hp
  by_cases hsg : start = goal
  · rw [if_pos hsg] at hp
    rw [Option.some_inj] at hp
    subst hp
    rfl
  · rw [if_neg hsg] at hp
    obtain ⟨c, pc, d, hent, hd, hgoal, hpe⟩ :=
      bfsLoop_some_spec start goal obstacles searchFuel _ _ (bfs_init_inv start obstacles) p hp
    subst hpe
    refine isStepChain_append_singleton hent.2.1 hent.2.2.1 ?_
    rw [hgoal]
    simpa using hd

/-- The survival fallback path is a unit step chain. -/
theorem get_safe_path_chain (head : Pos) (obstacles : List Pos) :
    isStepChain (get_safe_path head obstacles) = true := by
  unfold get_safe_path
  dsimp only
  rcases hres : find_path_astar head (get_safe_path_scan head obstacles) obstacles with _ | p
  · rfl
  · rcases p with _ | ⟨a, rest⟩
    · rfl
    · exact (astar_some_spec head _ obstacles _ hres).2.2.1

/-- Whatever branch `_plan_path` takes, the stored path is a unit step
chain. -/
theorem plan_path_chain (head food_position : Pos) (special_food_position : Option Pos)
    (obstacles : List Pos) :
    isStepChain (plan_path head food_position special_food_position obstacles) = true := by
  unfold plan_path
  dsimp only
  rcases h1 : find_path_astar head (special_food_position.getD food_position) obstacles with _ | p1
  · rcases h2 : find_path_bfs head (special_food_position.getD food_position) obstacles with _ | q
    · simpa [falsy] using get_safe_path_chain head obstacles
    · rcases q with _ | ⟨b, qs⟩
      · simpa [falsy] using get_safe_path_chain head obstacles
      · simpa [falsy] using bfs_some_chain head _ obstacles _ h2
  · rcases p1 with _ | ⟨a, ps⟩
    · rcases h2 : find_path_bfs head (special_food_position.getD food_position) obstacles with _ | q
      · simpa [falsy] using get_safe_path_chain head obstacles
      · rcases q with _ | ⟨b, qs⟩
        · simpa [falsy] using get_safe_path_chain head obstacles
        · simpa [falsy] using bfs_some_chain head _ obstacles _ h2
    · simpa [falsy] using (astar_some_spec head _ obstacles _ h1).2.2.1

/-- `_get_safe_move` always returns a unit direction vector. -/
theorem get_safe_move_mem (head : Pos) (obstacles : List Pos) (k : ℕ) :
    get_safe_move head obstacles k ∈ dirList := by
  unfold get_safe_move
  dsimp only
  split
  · simp [dirList]
  · rename_i hne
    have hlen : 0 < (dirList.filter (fun d => is_safe_move head d obstacles)).length := by
      rcases hl : dirList.filter (fun d => is_safe_move head d obstacles) with _ | _
      · rw [hl] at hne
        simp at hne
      · simp
    have hk : k % (dirList.filter (fun d => is_safe_move head d obstacles)).length <
        (dirList.filter (fun d => is_safe_move head d obstacles)).length :=
      Nat.mod_lt _ hlen
    rw [List.getD_eq_getElem _ _ hk]
    exact List.mem_of_mem_filter (List.getElem_mem _)

/-- `_add_randomness` keeps the direction inside the four unit vectors. -/
theorem add_randomness_mem (direction head : Pos) (obstacles : List Pos) (k : ℕ)
    (hdir : direction ∈ dirList) : add_randomness direction head obstacles k ∈ dirList := by
  unfold add_randomness
  dsimp only
  split
  · exact hdir
  · rename_i hlen2
    have hlen : 0 < (dirList.filter (fun d => is_safe_move head d obstacles)).length := by
      omega
    have hk : k % (dirList.filter (fun d => is_safe_move head d obstacles)).length <
        (dirList.filter (fun d => is_safe_move head d obstacles)).length :=
      Nat.mod_lt _ hlen
    rw [List.getD_eq_getElem _ _ hk]
    exact List.mem_of_mem_filter (List.getElem_mem _)

/-- **C4.** For every input — any snake body, any food position, any optional
special-food position — and any random draws, `get_next_move` returns one of
the four unit direction vectors (the embedding is a total function, so no
exception can escape); when the snake body is empty it returns the fixed
default RIGHT immediately.  The hypothesis states the agent-state invariant
(the stored path is a unit step chain) that holds initially (the fresh path
is empty) and, as the second conjunct shows, is preserved by every call. -/
theorem get_next_move_total
    (a : AIAgent) (snake_body : List Pos) (food_position : Pos)
    (special_food_position : Option Pos) (o : MoveOracle)
    (hwf : isStepChain a.current_path = true) :
    (a.get_next_move snake_body food_position special_food_position o).1 ∈ dirList ∧
    isStepChain
      (a.get_next_move snake_body food_position special_food_position o).2.current_path = true ∧
    (snake_body = [] →
      (a.get_next_move snake_body food_position special_food_position o).1 = Direction.RIGHT) := by
  rcases snake_body with _ | ⟨head, rest⟩
  · exact ⟨by simp [AIAgent.get_next_move, dirList], hwf, fun _ => rfl⟩
  · unfold AIAgent.get_next_move
    dsimp only
    by_cases hrep : should_replan_path a head food_position = true
    · rw [if_pos hrep]
      dsimp only
      refine ⟨?_, plan_path_chain head food_position special_food_position rest,
        fun h => (List.cons_ne_nil _ _ h).elim⟩
      have hchain := plan_path_chain head food_position special_food_position rest
      rcases hnd : get_next_direction head
          (plan_path head food_position special_food_position rest) with _ | d
      · dsimp only
        split
        · exact add_randomness_mem _ head rest _ (get_safe_move_mem head rest o.choice1)
        · exact get_safe_move_mem head rest o.choice1
      · dsimp only
        by_cases hsafe : is_safe_move head d rest = true
        · rw [if_pos hsafe]
          split
          · exact add_randomness_mem _ head rest _
              (get_next_direction_mem_of_chain hchain hnd)
          · exact get_next_direction_mem_of_chain hchain hnd
        · rw [if_neg hsafe]
          split
          · exact add_randomness_mem _ head rest _ (get_safe_move_mem head rest o.choice1)
          · exact get_safe_move_mem head rest o.choice1
    · rw [if_neg hrep]
      refine ⟨?_, hwf, fun h => (List.cons_ne_nil _ _ h).elim⟩
      rcases hnd : get_next_direction head a.current_path with _ | d
      · dsimp only
        split
        · exact add_randomness_mem _ head rest _ (get_safe_move_mem head rest o.choice1)
        · exact get_safe_move_mem head rest o.choice1
      · dsimp only
        by_cases hsafe : is_safe_move head d rest = true
        · rw [if_pos hsafe]
          split
          · exact add_randomness_mem _ head rest _
              (get_next_direction_mem_of_chain hwf hnd)
          · exact get_next_direction_mem_of_chain hwf hnd
        · rw [if_neg hsafe]
          split
          · exact add_randomness_mem _ head rest _ (get_safe_move_mem head rest o.choice1)
          · exact get_safe_move_mem head rest o.choice1

/-- Witness for C4: the freshly constructed agent (whose stored path is
empty, trivially a step chain) applied to an empty snake body, and to a
one-cell snake. -/
theorem get_next_move_total_witness :
    ((AIAgent.init 2).get_next_move [] (5, 5) none ⟨false, 0, 0⟩).1 = Direction.RIGHT ∧
    ((AIAgent.init 2).get_next_move [(20, 15)] (25, 15) none ⟨false, 0, 0⟩).1 ∈ dirList := by
  constructor
  · exact (get_next_move_total (AIAgent.init 2) [] (5, 5) none ⟨false, 0, 0⟩ rfl).2.2 rfl
  · exact (get_next_move_total (AIAgent.init 2) [(20, 15)] (25, 15) none ⟨false, 0, 0⟩ rfl).1

/-- **C5.** For every engine state and every difficulty outside
{EASY, MEDIUM, HARD, EXPERT}, `start_game` is rejected with an
invalid-argument error, and the engine state is left entirely unchanged —
the difficulty check precedes every mutation, so start does not apply
at all, let alone partially. -/
theorem start_game_invalid_difficulty_rejected_unchanged
    (e : GameEngine) (ai_enabled : Bool) (difficulty : ℤ) (food_pos : Pos)
    (h1 : difficulty ≠ AIDifficulty.EASY) (h2 : difficulty ≠ AIDifficulty.MEDIUM)
    (h3 : difficulty ≠ AIDifficulty.HARD) (h4 : difficulty ≠ AIDifficulty.EXPERT) :
    e.start_game ai_enabled difficulty food_pos = Except.error "invalid AI difficulty" ∧
    e.start_game_result ai_enabled difficulty food_pos = e := by
  have herr : e.start_game ai_enabled difficulty food_pos = Except.error "invalid AI difficulty" := by
    unfold GameEngine.start_game
    rw [if_neg]
    push_neg
    exact ⟨h1, h2, h3, h4⟩
  refine ⟨herr, ?_⟩
  unfold GameEngine.start_game_result
  rw [herr]

/-- Witness for C5 at difficulty 0. -/
theorem start_game_invalid_difficulty_rejected_unchanged_witness :
    (GameEngine.init (0, 0)).start_game true 0 (3, 3) = Except.error "invalid AI difficulty" ∧
    (GameEngine.init (0, 0)).start_game_result true 0 (3, 3) = GameEngine.init (0, 0) :=
  start_game_invalid_difficulty_rejected_unchanged (GameEngine.init (0, 0)) true 0 (3, 3)
    (by decide) (by decide) (by decide) (by decide)

/-- **C6.** `update` is a strict no-op in every non-PLAYING state; and in the
PLAYING state, when the moved snake collides, the only effects are the snake
movement and the transition to GAME_OVER — score, food, special food and the
special-food timer are untouched (the record-update equality fixes every
other field). -/
theorem update_non_playing_noop_and_collision_stops
    (e : GameEngine) (o : UpdateOracle) :
    (e.game_state ≠ GameState.PLAYING → e.update o = e) ∧
    (e.game_state = GameState.PLAYING → (e.snake.move).check_collision = true →
      e.update o = { e with snake := e.snake.move, game_state := GameState.GAME_OVER }) := by
  constructor
  · intro h
    unfold GameEngine.update
    rw [if_pos h]
  · intro hplay hcol
    unfold GameEngine.update
    rw [if_neg (by simp [hplay])]
    simp only [hcol, if_true]

/-- Witness for C6: a MENU-state engine is untouched, and a PLAYING engine
whose snake runs off the left edge transitions to GAME_OVER with nothing else
changed. -/
theorem update_non_playing_noop_and_collision_stops_witness :
    ((GameEngine.init (5, 5)).update ⟨(1, 1), false, (2, 2)⟩ = GameEngine.init (5, 5)) ∧
    (({ GameEngine.init (5, 5) with
        game_state := GameState.PLAYING
        snake := { body := [(0, 0)], direction := Direction.LEFT, grow_pending := false } }).update
        ⟨(1, 1), false, (2, 2)⟩ =
      { GameEngine.init (5, 5) with
        game_state := GameState.GAME_OVER
        snake := { body := [(-1, 0)], direction := Direction.LEFT, grow_pending := false } }) := by
  constructor
  · exact (update_non_playing_noop_and_collision_stops (GameEngine.init (5, 5))
      ⟨(1, 1), false, (2, 2)⟩).1 (by decide)
  · have h := (update_non_playing_noop_and_collision_stops
      { GameEngine.init (5, 5) with
        game_state := GameState.PLAYING
        snake := { body := [(0, 0)], direction := Direction.LEFT, grow_pending := false } }
      ⟨(1, 1), false, (2, 2)⟩).2 rfl (by decide)
    rw [h]
    decide

/-- **C7.** Eating an active speed-boost special food adds its value to the
score, raises the speed by 2 capped at 30 (so 15 becomes 17), clears the
special food and resets the timer to 0. -/
theorem eat_special_food_speed_boost
    (e : GameEngine) (sf : Food)
    (hsf : e.special_food = some sf) (hty : sf.special_type = "speed_boost") :
    e.eat_special_food =
      { e with
        score := e.score + sf.value
        game_speed := min (e.game_speed + 2) 30
        special_food := none
        special_food_timer := 0 } ∧
    (e.game_speed = 15 → e.eat_special_food.game_speed = 17) := by
  have hmain : e.eat_special_food =
      { e with
        score := e.score + sf.value
        game_speed := min (e.game_speed + 2) 30
        special_food := none
        special_food_timer := 0 } := by
    unfold GameEngine.eat_special_food GameEngine.apply_special_food_effect
    rw [hsf]
    simp [hty]
  refine ⟨hmain, fun h15 => ?_⟩
  rw [hmain]
  simp [h15]

/-- A concrete engine holding a speed-boost special food, for the C7
witness. -/
def boostEngine : GameEngine :=
  { GameEngine.init (1, 1) with
    special_food := some { position := (4, 4), value := 2, special_type := "speed_boost" }
    special_food_timer := 100 }

/-- The special food active in `boostEngine`. -/
def boostFood : Food :=
  { position := (4, 4), value := 2, special_type := "speed_boost" }

/-- Witness for C7: a concrete engine at speed 15 holding a speed-boost
special food of value 2. -/
theorem eat_special_food_speed_boost_witness :
    boostEngine.eat_special_food =
      { boostEngine with
        score := boostEngine.score + boostFood.value
        game_speed := min (boostEngine.game_speed + 2) 30
        special_food := none
        special_food_timer := 0 } ∧
    (boostEngine.game_speed = 15 → boostEngine.eat_special_food.game_speed = 17) :=
  eat_special_food_speed_boost boostEngine boostFood rfl rfl

/-- **C8.** `Snake.move` prepends `head + direction` (no bounds check: no
validity hypothesis appears); with the growth flag set the tail is kept, the
length grows by exactly 1 and the flag is cleared; without it the tail is
dropped and the length is unchanged. -/
theorem snake_move_spec (s : Snake) (h : s.body ≠ []) :
    s.move.body =
      ((s.body.headD (0, 0)).1 + s.direction.1, (s.body.headD (0, 0)).2 + s.direction.2) ::
        (if s.grow_pending then s.body else s.body.dropLast) ∧
    s.move.grow_pending = false ∧
    (s.grow_pending = true → s.move.body.length = s.body.length + 1) ∧
    (s.grow_pending = false → s.move.body.length = s.body.length) := by
  obtain ⟨body, dir, grow⟩ := s
  match body, h with
  | (hx, hy) :: t, _ =>
    cases grow <;> simp [Snake.move, List.length_dropLast]

/-- Witness for C8 on a concrete 2-segment snake. -/
theorem snake_move_spec_witness :
    ({ body := [(3, 3), (2, 3)], direction := Direction.RIGHT, grow_pending := true } : Snake).move.body
        = ((3 : ℤ) + 1, (3 : ℤ) + 0) :: [(3, 3), (2, 3)] ∧
    ({ body := [(3, 3), (2, 3)], direction := Direction.RIGHT, grow_pending := true } : Snake).move.grow_pending
        = false ∧
    ({ body := [(3, 3), (2, 3)], direction := Direction.RIGHT, grow_pending := true } : Snake).move.body.length
        = 3 := by
  have h := snake_move_spec
    { body := [(3, 3), (2, 3)], direction := Direction.RIGHT, grow_pending := true } (by decide)
  exact ⟨h.1, h.2.1, h.2.2.1 rfl⟩

/-- **C9.** The full contract of `get_next_direction`: `none` for paths of
fewer than two cells; `none` when `current_pos` is absent; the step vector to
the element after the (first) occurrence of `current_pos` when that
occurrence is not last; `none` at the last element of a duplicate-free
path. -/
theorem get_next_direction_contract :
    (∀ (cur : Pos) (path : List Pos), path.length < 2 → get_next_direction cur path = none) ∧
    (∀ (cur : Pos) (path : List Pos), cur ∉ path → get_next_direction cur path = none) ∧
    (∀ (cur : Pos) (path : List Pos) (i : ℕ) (hi : i + 1 < path.length),
      list_index cur path = i →
      get_next_direction cur path =
        some ((path.get ⟨i + 1, hi⟩).1 - cur.1, (path.get ⟨i + 1, hi⟩).2 - cur.2)) ∧
    (∀ (cur : Pos) (path : List Pos), path.Nodup → path.getLast? = some cur →
      get_next_direction cur path = none) := by
  refine ⟨?_, ?_, ?_, ?_⟩
  · intro cur path hlen
    unfold get_next_direction
    rw [if_pos hlen]
  · intro cur path hmem
    unfold get_next_direction
    split
    · rfl
    · rw [dif_neg]
      rw [list_index_of_not_mem hmem]
      omega
  · intro cur path i hi hidx
    unfold get_next_direction
    rw [if_neg (by omega)]
    simp only [hidx]
    rw [dif_pos hi]
  · intro cur path hnd hlast
    have hne : path ≠ [] := by
      rintro rfl
      simp at hlast
    have hpos : 0 < path.length := List.length_pos.2 hne
    have hcur : path.getLast hne = cur := by
      rw [List.getLast?_eq_getLast_of_ne_nil hne] at hlast
      exact Option.some_inj.1 hlast
    have hmem : cur ∈ path := hcur ▸ List.getLast_mem hne
    have hidx : list_index cur path < path.length := list_index_lt_length hmem
    have h1 : path.get ⟨list_index cur path, hidx⟩ = cur := list_index_get hidx
    have hlen1 : path.length - 1 < path.length := by omega
    have h2 : path.get ⟨path.length - 1, hlen1⟩ = cur := by
      rw [← hcur, List.getLast_eq_getElem]
      simp
    have hinj := List.nodup_iff_injective_get.1 hnd
    have heq : (⟨list_index cur path, hidx⟩ : Fin path.length) = ⟨path.length - 1, hlen1⟩ :=
      hinj (by rw [h1, h2])
    have hival : list_index cur path = path.length - 1 := by
      simpa using congrArg Fin.val heq
    unfold get_next_direction
    split
    · rfl
    · rw [dif_neg]
      rw [hival]
      omega

/-- Witness for C9: each clause instantiated on a concrete two-cell path. -/
theorem get_next_direction_contract_witness :
    get_next_direction (5, 5) [(0, 0)] = none ∧
    get_next_direction (9, 9) [(0, 0), (1, 0)] = none ∧
    get_next_direction (0, 0) [(0, 0), (1, 0)] = some ((1 : ℤ) - 0, (0 : ℤ) - 0) ∧
    get_next_direction (1, 0) [(0, 0), (1, 0)] = none := by
  refine ⟨?_, ?_, ?_, ?_⟩
  · exact get_next_direction_contract.1 (5, 5) [(0, 0)] (by decide)
  · exact get_next_direction_contract.2.1 (9, 9) [(0, 0), (1, 0)] (by decide)
  · exact get_next_direction_contract.2.2.1 (0, 0) [(0, 0), (1, 0)] 0 (by decide) (by decide)
  · exact get_next_direction_contract.2.2.2 (1, 0) [(0, 0), (1, 0)] (by decide) (by decide)

/-! ## Reachable engine states (for the C10 invariant) -/

/-- Engine states reachable from construction through the public operations
(`start_game` with any accepted difficulty, `pause_game`, `resume_game`,
`update`, `reset_game`, `change_snake_direction`); random draws are
universally quantified oracles. -/
inductive EngineReachable : GameEngine → Prop
  | init (fp : Pos) : EngineReachable (GameEngine.init fp)
  | start {e : GameEngine} (ai : Bool) (d : ℤ) (fp : Pos) {e' : GameEngine} :
      EngineReachable e → e.start_game ai d fp = Except.ok e' → EngineReachable e'
  | pause {e : GameEngine} : EngineReachable e → EngineReachable e.pause_game
  | resume {e : GameEngine} : EngineReachable e → EngineReachable e.resume_game
  | reset {e : GameEngine} (fp : Pos) : EngineReachable e → EngineReachable (e.reset_game fp)
  | update {e : GameEngine} (o : UpdateOracle) : EngineReachable e → EngineReachable (e.update o)
  | changeDir {e : GameEngine} (d : Pos) :
      EngineReachable e → EngineReachable (e.change_snake_direction d)

/-- `_eat_food` never touches the speed. -/
theorem game_speed_eat_food (e : GameEngine) (o : UpdateOracle) :
    (e.eat_food o).game_speed = e.game_speed := by
  simp only [GameEngine.eat_food]
  split <;> rfl

/-- `_apply_special_food_effect` keeps the speed within [5, 30]. -/
theorem game_speed_apply_effect (e : GameEngine)
    (h5 : 5 ≤ e.game_speed) (h30 : e.game_speed ≤ 30) :
    5 ≤ e.apply_special_food_effect.game_speed ∧
      e.apply_special_food_effect.game_speed ≤ 30 := by
  rcases hsf : e.special_food with _ | sf
  · simp only [GameEngine.apply_special_food_effect, hsf]
    exact ⟨h5, h30⟩
  · simp only [GameEngine.apply_special_food_effect, hsf]
    split_ifs
    · constructor
      · show (5 : ℤ) ≤ min (e.game_speed + 2) 30
        omega
      · show min (e.game_speed + 2) 30 ≤ (30 : ℤ)
        omega
    · constructor
      · show (5 : ℤ) ≤ max (e.game_speed - 2) 5
        omega
      · show max (e.game_speed - 2) 5 ≤ (30 : ℤ)
        omega
    · exact ⟨h5, h30⟩
    · exact ⟨h5, h30⟩

/-- `_eat_special_food` keeps the speed within [5, 30]. -/
theorem game_speed_eat_special (e : GameEngine)
    (h5 : 5 ≤ e.game_speed) (h30 : e.game_speed ≤ 30) :
    5 ≤ e.eat_special_food.game_speed ∧ e.eat_special_food.game_speed ≤ 30 := by
  rcases hsf : e.special_food with _ | sf
  · simp only [GameEngine.eat_special_food, hsf]
    exact ⟨h5, h30⟩
  · simp only [GameEngine.eat_special_food, hsf]
    exact game_speed_apply_effect
      { e with score := e.score + sf.value, special_food := some sf } h5 h30

/-- `_update_special_food` never touches the speed. -/
theorem game_speed_update_special (e : GameEngine) :
    e.update_special_food.game_speed = e.game_speed := by
  rcases hsf : e.special_food with _ | sf
  · simp only [GameEngine.update_special_food, hsf]
  · simp only [GameEngine.update_special_food, hsf]
    split <;> rfl

/-- `update` keeps the speed within [5, 30]. -/
theorem game_speed_update (e : GameEngine) (o : UpdateOracle)
    (h5 : 5 ≤ e.game_speed) (h30 : e.game_speed ≤ 30) :
    5 ≤ (e.update o).game_speed ∧ (e.update o).game_speed ≤ 30 := by
  unfold GameEngine.update
  split
  · exact ⟨h5, h30⟩
  · dsimp only
    split
    · exact ⟨h5, h30⟩
    · rw [game_speed_update_special]
      split
      · -- an active special food under the head: eat it
        split
        · apply game_speed_eat_special
          · split
            · rw [game_speed_eat_food]
              exact h5
            · exact h5
          · split
            · rw [game_speed_eat_food]
              exact h30
            · exact h30
        · constructor
          · split
            · rw [game_speed_eat_food]
              exact h5
            · exact h5
          · split
            · rw [game_speed_eat_food]
              exact h30
            · exact h30
      · constructor
        · split
          · rw [game_speed_eat_food]
            exact h5
          · exact h5
        · split
          · rw [game_speed_eat_food]
            exact h30
          · exact h30

/-- A successful `start_game` sets the speed from the difficulty table. -/
theorem game_speed_start_game (e : GameEngine) (ai : Bool) (d : ℤ) (fp : Pos)
    (e' : GameEngine) (h : e.start_game ai d fp = Except.ok e') :
    e'.game_speed = 10 ∨ e'.game_speed = 15 ∨ e'.game_speed = 20 ∨ e'.game_speed = 25 := by
  unfold GameEngine.start_game at h
  split at h
  · simp only [Except.ok.injEq] at h
    subst h
    unfold GameEngine.set_game_speed
    split_ifs <;> simp
  · cases h

/-- **C10.** In every reachable engine state the speed lies in [5, 30]; it is
initialised to 15, a successful `start_game` draws it from {10, 15, 20, 25},
a speed boost adds 2 capped at 30 and a slow-down subtracts 2 floored at 5. -/
theorem game_speed_invariant :
    (∀ e : GameEngine, EngineReachable e → 5 ≤ e.game_speed ∧ e.game_speed ≤ 30) ∧
    (∀ fp : Pos, (GameEngine.init fp).game_speed = 15) ∧
    (∀ (e : GameEngine) (ai : Bool) (d : ℤ) (fp : Pos) (e' : GameEngine),
      e.start_game ai d fp = Except.ok e' →
      e'.game_speed = 10 ∨ e'.game_speed = 15 ∨ e'.game_speed = 20 ∨ e'.game_speed = 25) ∧
    (∀ (e : GameEngine) (sf : Food), e.special_food = some sf →
      sf.special_type = "speed_boost" →
      e.apply_special_food_effect.game_speed = min (e.game_speed + 2) 30) ∧
    (∀ (e : GameEngine) (sf : Food), e.special_food = some sf →
      sf.special_type = "slow_down" →
      e.apply_special_food_effect.game_speed = max (e.game_speed - 2) 5) := by
  refine ⟨?_, fun _ => rfl, game_speed_start_game, ?_, ?_⟩
  · intro e h
    induction h with
    | init fp => exact ⟨show (5 : ℤ) ≤ 15 by decide, show (15 : ℤ) ≤ 30 by decide⟩
    | start ai d fp hr hok ih =>
      rcases game_speed_start_game _ ai d fp _ hok with h | h | h | h <;> rw [h] <;> exact ⟨by decide, by decide⟩
    | pause hr ih =>
      unfold GameEngine.pause_game
      split <;> exact ih
    | resume hr ih =>
      unfold GameEngine.resume_game
      split <;> exact ih
    | reset fp hr ih => exact ih
    | update o hr ih => exact game_speed_update _ o ih.1 ih.2
    | changeDir d hr ih =>
      unfold GameEngine.change_snake_direction
      split <;> exact ih
  · intro e sf hsf hty
    unfold GameEngine.apply_special_food_effect
    rw [hsf]
    simp [hty]
  · intro e sf hsf hty
    unfold GameEngine.apply_special_food_effect
    rw [hsf]
    simp [hty]

/-- Witness for C10: the freshly constructed engine is reachable and its
speed 15 lies in the bounds; the other clauses at concrete instances. -/
theorem game_speed_invariant_witness :
    (5 ≤ (GameEngine.init (0, 0)).game_speed ∧ (GameEngine.init (0, 0)).game_speed ≤ 30) ∧
    boostEngine.apply_special_food_effect.game_speed = min (boostEngine.game_speed + 2) 30 := by
  constructor
  · exact game_speed_invariant.1 _ (EngineReachable.init (0, 0))
  · exact game_speed_invariant.2.2.2.1 boostEngine boostFood rfl rfl

/-- A* returns no path whenever the goal is distinct from the start and lies
in the obstacle set (the goal can then never be added to the open list). -/
theorem astar_none_of_goal_obstacle (start goal : Pos) (obstacles : List Pos)
    (hne : start ≠ goal) (hobs : goal ∈ obstacles) :
    find_path_astar start goal obstacles = none := by
  unfold find_path_astar
  rw [if_neg hne]
  apply astarLoop_none_of_obstacle goal obstacles hobs
  intro h
  rw [List.mem_singleton] at h
  exact hne h.symm

/-- **C2, counterexample.** The claim "both `find_path_astar` and
`find_path_bfs` return no path whenever the goal belongs to the obstacle set"
fails at start (2,2), goal (3,2), obstacles {(3,2)}: BFS tests each neighbour
against the goal before the blocked-cell check and returns a path onto the
blocked goal. -/
theorem searches_blocked_goal_counterexample :
    ((2, 2) : Pos) ≠ (3, 2) ∧ ((3, 2) : Pos) ∈ [((3, 2) : Pos)] ∧
    find_path_astar (2, 2) (3, 2) [(3, 2)] = none ∧
    find_path_bfs (2, 2) (3, 2) [(3, 2)] = some [(2, 2), (3, 2)] := by
  refine ⟨by decide, by decide, ?_, by decide⟩
  exact astar_none_of_goal_obstacle (2, 2) (3, 2) [(3, 2)] (by decide) (by decide)

/-- **C2, amended.** For every start, goal and obstacle set with
start ≠ goal and goal an obstacle, `find_path_astar` returns no path; but
`find_path_bfs` does not share this guarantee — it checks each neighbour
against the goal before the blocked-cell test, and e.g. at start (2,2),
goal (3,2), obstacles {(3,2)} it returns the path [(2,2),(3,2)] onto the
blocked goal. -/
theorem astar_blocked_goal_none_bfs_not :
    (∀ (start goal : Pos) (obstacles : List Pos), start ≠ goal → goal ∈ obstacles →
      find_path_astar start goal obstacles = none) ∧
    find_path_bfs (2, 2) (3, 2) [(3, 2)] = some [(2, 2), (3, 2)] :=
  ⟨astar_none_of_goal_obstacle, by decide⟩

/-- Witness for the amended C2, at start (0,0), goal (2,0), obstacles
{(0,1), (1,0), (2,0)}. -/
theorem astar_blocked_goal_none_bfs_not_witness :
    ((0, 0) : Pos) ≠ (2, 0) ∧ ((2, 0) : Pos) ∈ [((0, 1) : Pos), (1, 0), (2, 0)] ∧
    find_path_astar (0, 0) (2, 0) [(0, 1), (1, 0), (2, 0)] = none :=
  ⟨by decide, by decide,
    astar_blocked_goal_none_bfs_not.1 (0, 0) (2, 0) [(0, 1), (1, 0), (2, 0)]
      (by decide) (by decide)⟩

/-! ## Grid geometry lemmas for the shortest-path claims -/

/-- The numeric content of `is_valid_position`. -/
theorem is_valid_position_iff (p : Pos) :
    is_valid_position p = true ↔ 0 ≤ p.1 ∧ p.1 < 40 ∧ 0 ≤ p.2 ∧ p.2 < 30 := by
  have h40 : GRID_WIDTH = 40 := by decide
  have h30 : GRID_HEIGHT = 30 := by decide
  simp [is_valid_position, h40, h30, and_assoc]

/-- Manhattan distance from a point to itself. -/
theorem manhattan_self (a : Pos) : manhattan a a = 0 := by
  simp [manhattan]

/-- Distinct points are at positive Manhattan distance. -/
theorem manhattan_pos {a b : Pos} (h : a ≠ b) : 0 < manhattan a b := by
  rcases a with ⟨ax, ay⟩
  rcases b with ⟨bx, by'⟩
  unfold manhattan
  dsimp only
  by_contra hcon
  push_neg at hcon
  apply h
  have hxy : ax = bx ∧ ay = by' := by omega
  simp [hxy.1, hxy.2]

/-- The triangle inequality for the Manhattan distance. -/
theorem manhattan_triangle (a b c : Pos) :
    manhattan a c ≤ manhattan a b + manhattan b c := by
  unfold manhattan
  omega

/-- A unit step is at Manhattan distance 1. -/
theorem manhattan_neighbor (u : Pos) {d : Pos} (hd : d ∈ dirList) :
    manhattan u (u.1 + d.1, u.2 + d.2) = 1 := by
  simp only [dirList, Direction.UP, Direction.DOWN, Direction.LEFT, Direction.RIGHT,
    List.mem_cons, List.not_mem_nil, or_false] at hd
  rcases hd with rfl | rfl | rfl | rfl
  all_goals
    unfold manhattan
    omega

/-- A unit step changes the Manhattan distance to any point by exactly 1. -/
theorem manhattan_step (a u : Pos) {d : Pos} (hd : d ∈ dirList) :
    manhattan a (u.1 + d.1, u.2 + d.2) = manhattan a u + 1 ∨
    manhattan a (u.1 + d.1, u.2 + d.2) + 1 = manhattan a u := by
  simp only [dirList, Direction.UP, Direction.DOWN, Direction.LEFT, Direction.RIGHT,
    List.mem_cons, List.not_mem_nil, or_false] at hd
  rcases hd with rfl | rfl | rfl | rfl
  all_goals
    unfold manhattan
    omega

/-- Towards any strictly-distant point there is an in-bounds unit step that
reduces the Manhattan distance by one (the grid is a full rectangle). -/
theorem toward_neighbor (a z : Pos) (ha : is_valid_position a = true)
    (hz : is_valid_position z = true) (h : 0 < manhattan a z) :
    ∃ d ∈ dirList, is_valid_position (z.1 + d.1, z.2 + d.2) = true ∧
      manhattan a (z.1 + d.1, z.2 + d.2) + 1 = manhattan a z := by
  rw [is_valid_position_iff] at ha hz
  rcases lt_trichotomy z.1 a.1 with h1 | h1 | h1
  · refine ⟨(1, 0), by decide, ?_, ?_⟩
    · rw [is_valid_position_iff]
      dsimp only
      omega
    · unfold manhattan
      dsimp only
      omega
  · rcases lt_trichotomy z.2 a.2 with h2 | h2 | h2
    · refine ⟨(0, 1), by decide, ?_, ?_⟩
      · rw [is_valid_position_iff]
        dsimp only
        omega
      · unfold manhattan
        dsimp only
        omega
    · exfalso
      unfold manhattan at h
      omega
    · refine ⟨(0, -1), by decide, ?_, ?_⟩
      · rw [is_valid_position_iff]
        dsimp only
        omega
      · unfold manhattan
        dsimp only
        omega
  · refine ⟨(-1, 0), by decide, ?_, ?_⟩
    · rw [is_valid_position_iff]
      dsimp only
      omega
    · unfold manhattan
      dsimp only
      omega

/-! ## Properties of Python's `min` over f-scores -/

/-- `keyLt` is irreflexive. -/
theorem keyLt_irrefl (o : Option ℕ) : keyLt o o = false := by
  cases o <;> simp [keyLt]

/-- `keyLt` is transitive. -/
theorem keyLt_trans {a b c : Option ℕ} (h1 : keyLt a b = true) (h2 : keyLt b c = true) :
    keyLt a c = true := by
  cases a <;> cases b <;> cases c <;> first
    | (simp [keyLt] at *; omega)
    | simp [keyLt] at *

/-- A non-smaller key stays non-smaller across a strict step. -/
theorem keyLt_trans_left {a b c : Option ℕ} (h1 : keyLt a b = false) (h2 : keyLt a c = true) :
    keyLt b c = true := by
  cases a <;> cases b <;> cases c <;> first
    | (simp [keyLt] at *; omega)
    | simp [keyLt] at *

/-- Python's `min` returns an element no key is strictly smaller than. -/
theorem minBy_min (f : Pos → Option ℕ) (x : Pos) (xs : List Pos) :
    ∀ y ∈ x :: xs, keyLt (f y) (f (minBy f x xs)) = false := by
  unfold minBy
  induction xs generalizing x with
  | nil =>
    intro y hy
    rw [List.mem_singleton] at hy
    subst hy
    simp [keyLt_irrefl]
  | cons z zs ih =>
    intro y hy
    simp only [List.foldl_cons]
    by_cases hzx : keyLt (f z) (f x) = true
    · rw [if_pos hzx]
      rcases List.mem_cons.1 hy with rfl | hy2
      · by_contra hcon
        rw [Bool.not_eq_false] at hcon
        have h1 := ih z z (List.mem_cons_self _ _)
        have h2 := keyLt_trans hzx hcon
        rw [h1] at h2
        cases h2
      · rcases List.mem_cons.1 hy2 with rfl | hy3
        · exact ih y y (List.mem_cons_self _ _)
        · exact ih z y (List.mem_cons_of_mem _ hy3)
    · rw [if_neg hzx]
      rcases List.mem_cons.1 hy with rfl | hy2
      · exact ih y y (List.mem_cons_self _ _)
      · rcases List.mem_cons.1 hy2 with rfl | hy3
        · by_contra hcon
          rw [Bool.not_eq_false] at hcon
          have h1 := ih x x (List.mem_cons_self _ _)
          have h2 := keyLt_trans_left (by simpa using hzx) hcon
          rw [h1] at h2
          cases h2
        · exact ih x y (List.mem_cons_of_mem _ hy3)

/-- Manhattan distance is symmetric. -/
theorem manhattan_comm (a b : Pos) : manhattan a b = manhattan b a := by
  unfold manhattan
  omega

/-- The opposite of a unit direction is a unit direction. -/
theorem neg_mem_dirList {d : Pos} (hd : d ∈ dirList) : ((-d.1, -d.2) : Pos) ∈ dirList := by
  simp only [dirList, Direction.UP, Direction.DOWN, Direction.LEFT, Direction.RIGHT,
    List.mem_cons, List.not_mem_nil, or_false] at hd ⊢
  rcases hd with rfl | rfl | rfl | rfl <;> simp

/-! ## The A* optimality invariant (obstacle-free runs)

`AOpt` extends the bookkeeping invariant with what makes A* with a
consistent heuristic optimal: f-scores are g plus the Manhattan heuristic,
g-scores never undercut the true distance, closed nodes carry the exact
distance and have all their in-bounds neighbours discovered with scores at
most one step worse, and the goal is never closed before being returned. -/

structure AOpt (start goal : Pos) (st : AState) : Prop where
  base : CameFromInv start [] st
  disj : ∀ n ∈ st.openSet, n ∉ st.closedSet
  open_nodup : st.openSet.Nodup
  closed_nodup : st.closedSet.Nodup
  mem_valid : ∀ n, n ∈ st.openSet ∨ n ∈ st.closedSet → is_valid_position n = true
  f_def : ∀ n k, st.g_score n = some k → st.f_score n = some (k + manhattan n goal)
  g_lb : ∀ n k, st.g_score n = some k → manhattan start n ≤ k
  dom_g : ∀ n k, st.g_score n = some k → n ∈ st.openSet ∨ n ∈ st.closedSet
  closed_exact : ∀ n ∈ st.closedSet, st.g_score n = some (manhattan start n)
  closed_exp : ∀ u ∈ st.closedSet, ∀ d ∈ dirList,
    is_valid_position (u.1 + d.1, u.2 + d.2) = true →
    (u.1 + d.1, u.2 + d.2) ∈ st.closedSet ∨
    ((u.1 + d.1, u.2 + d.2) ∈ st.openSet ∧
      ∃ k, st.g_score (u.1 + d.1, u.2 + d.2) = some k ∧ k ≤ manhattan start u + 1)
  goal_unclosed : goal ∉ st.closedSet

/-- The interception lemma: towards any in-bounds unclosed cell there is an
open node lying on a geodesic from the start whose g-score is exact. -/
theorem astar_intercept (start goal : Pos) (hstart : is_valid_position start = true)
    (st : AState) (inv : AOpt start goal st) :
    ∀ (m : ℕ) (z : Pos), manhattan start z = m → is_valid_position z = true →
      z ∉ st.closedSet →
      ∃ y ∈ st.openSet, st.g_score y = some (manhattan start y) ∧
        manhattan start y + manhattan y z = manhattan start z := by
  intro m
  induction m using Nat.strong_induction_on with
  | _ m ih =>
    intro z hm hz hzc
    rcases Nat.eq_zero_or_pos m with hm0 | hmpos
    · subst hm0
      have hzs : z = start := by
        by_contra hne
        have := manhattan_pos (a := start) (b := z) (fun h => hne h.symm)
        omega
      subst hzs
      have hso : z ∈ st.openSet := by
        rcases inv.base.start_mem with h | h
        · exact h
        · exact absurd h hzc
      refine ⟨z, hso, ?_, by simp [manhattan_self]⟩
      rw [inv.base.g_start, manhattan_self]
    · obtain ⟨d, hd, hnval, hnm⟩ := toward_neighbor start z hstart hz (by omega)
      have hmn : manhattan start (z.1 + d.1, z.2 + d.2) = m - 1 := by omega
      have hnz1 : manhattan z (z.1 + d.1, z.2 + d.2) = 1 := manhattan_neighbor z hd
      by_cases hnc : (z.1 + d.1, z.2 + d.2) ∈ st.closedSet
      · have hnd : ((-d.1, -d.2) : Pos) ∈ dirList := neg_mem_dirList hd
        have hzz : (((z.1 + d.1) + -d.1, (z.2 + d.2) + -d.2) : Pos) = z := by
          simp
        have hexp := inv.closed_exp (z.1 + d.1, z.2 + d.2) hnc (-d.1, -d.2) hnd
        rw [hzz] at hexp
        rcases hexp hz with hcl | ⟨hop, k, hk, hkb⟩
        · exact absurd hcl hzc
        · have hlb := inv.g_lb z k hk
          have hkm : k = m := by omega
          refine ⟨z, hop, ?_, by simp [manhattan_self]⟩
          rw [hk, hkm, hm]
      · obtain ⟨y, hyo, hyg, hysum⟩ :=
          ih (m - 1) (by omega) (z.1 + d.1, z.2 + d.2) hmn hnval hnc
        refine ⟨y, hyo, hyg, ?_⟩
        have ht1 : manhattan y z ≤ manhattan y (z.1 + d.1, z.2 + d.2) +
            manhattan (z.1 + d.1, z.2 + d.2) z :=
          manhattan_triangle _ _ _
        have ht2 : manhattan start z ≤ manhattan start y + manhattan y z :=
          manhattan_triangle _ _ _
        have hcm : manhattan (z.1 + d.1, z.2 + d.2) z = 1 := by
          rw [manhattan_comm]
          exact hnz1
        omega

/-- The node Python's `min` selects from the open list carries the exact
distance from the start: the key consequence of heuristic consistency. -/
theorem astar_exact_pop (start goal : Pos) (hstart : is_valid_position start = true)
    (st : AState) (inv : AOpt start goal st) (x : Pos) (xs : List Pos)
    (hos : st.openSet = x :: xs) :
    st.g_score (minBy st.f_score x xs) =
      some (manhattan start (minBy st.f_score x xs)) := by
  have hmem : minBy st.f_score x xs ∈ st.openSet := by
    rw [hos]
    exact minBy_mem _ _ _
  obtain ⟨k, hk⟩ : ∃ k, st.g_score (minBy st.f_score x xs) = some k := by
    rcases h : st.g_score (minBy st.f_score x xs) with _ | k
    · exact absurd h (inv.base.open_g _ hmem)
    · exact ⟨k, rfl⟩
  have hlb := inv.g_lb _ k hk
  have hnc : minBy st.f_score x xs ∉ st.closedSet := inv.disj _ hmem
  have hval : is_valid_position (minBy st.f_score x xs) = true := inv.mem_valid _ (Or.inl hmem)
  obtain ⟨y, hyo, hyg, hysum⟩ := astar_intercept start goal hstart st inv
    (manhattan start (minBy st.f_score x xs)) (minBy st.f_score x xs) rfl hval hnc
  have hymem : y ∈ x :: xs := hos ▸ hyo
  have hmin := minBy_min st.f_score x xs y hymem
  rw [inv.f_def y _ hyg, inv.f_def _ k hk] at hmin
  simp only [keyLt, decide_eq_false_iff_not, not_lt] at hmin
  have htriangle : manhattan y goal ≤
      manhattan y (minBy st.f_score x xs) + manhattan (minBy st.f_score x xs) goal :=
    manhattan_triangle _ _ _
  rw [hk]
  have : k = manhattan start (minBy st.f_score x xs) := by omega
  rw [this]

/-- One obstacle-free A* neighbour step preserves every optimality field
except the closed-expansion one, which it establishes for the processed
direction; it also reports the monotonicity facts (closed set unchanged,
open list grows, g-scores only improve) that carry the remaining
closed-expansion facts across the step. -/
theorem expandDir_opt (start goal current : Pos) (gc : ℕ) (st : AState) (d : Pos)
    (hd : d ∈ dirList)
    (hbase : CameFromInv start [] st)
    (hdisj : ∀ n ∈ st.openSet, n ∉ st.closedSet)
    (hopen_nodup : st.openSet.Nodup)
    (hclosed_nodup : st.closedSet.Nodup)
    (hmem_valid : ∀ n, n ∈ st.openSet ∨ n ∈ st.closedSet → is_valid_position n = true)
    (hf_def : ∀ n k, st.g_score n = some k → st.f_score n = some (k + manhattan n goal))
    (hg_lb : ∀ n k, st.g_score n = some k → manhattan start n ≤ k)
    (hdom_g : ∀ n k, st.g_score n = some k → n ∈ st.openSet ∨ n ∈ st.closedSet)
    (hclosed_exact : ∀ n ∈ st.closedSet, st.g_score n = some (manhattan start n))
    (hgc : st.g_score current = some gc)
    (hccl : current ∈ st.closedSet)
    (hreach : ReachFree [] start current)
    (hgcexact : gc = manhattan start current)
    (hgcb : gc + 1 ≤ st.closedSet.length) :
    (CameFromInv start [] (expandDir goal [] current gc st d) ∧
     (∀ n ∈ (expandDir goal [] current gc st d).openSet,
        n ∉ (expandDir goal [] current gc st d).closedSet) ∧
     (expandDir goal [] current gc st d).openSet.Nodup ∧
     (expandDir goal [] current gc st d).closedSet.Nodup ∧
     (∀ n, n ∈ (expandDir goal [] current gc st d).openSet ∨
        n ∈ (expandDir goal [] current gc st d).closedSet → is_valid_position n = true) ∧
     (∀ n k, (expandDir goal [] current gc st d).g_score n = some k →
        (expandDir goal [] current gc st d).f_score n = some (k + manhattan n goal)) ∧
     (∀ n k, (expandDir goal [] current gc st d).g_score n = some k →
        manhattan start n ≤ k) ∧
     (∀ n k, (expandDir goal [] current gc st d).g_score n = some k →
        n ∈ (expandDir goal [] current gc st d).openSet ∨
        n ∈ (expandDir goal [] current gc st d).closedSet) ∧
     (∀ n ∈ (expandDir goal [] current gc st d).closedSet,
        (expandDir goal [] current gc st d).g_score n = some (manhattan start n))) ∧
    (expandDir goal [] current gc st d).closedSet = st.closedSet ∧
    (∀ n ∈ st.openSet, n ∈ (expandDir goal [] current gc st d).openSet) ∧
    (∀ n k, st.g_score n = some k →
      ∃ k', (expandDir goal [] current gc st d).g_score n = some k' ∧ k' ≤ k) ∧
    (expandDir goal [] current gc st d).g_score current = some gc ∧
    (is_valid_position (current.1 + d.1, current.2 + d.2) = true →
      (current.1 + d.1, current.2 + d.2) ∈ (expandDir goal [] current gc st d).closedSet ∨
      ((current.1 + d.1, current.2 + d.2) ∈ (expandDir goal [] current gc st d).openSet ∧
        ∃ k, (expandDir goal [] current gc st d).g_score (current.1 + d.1, current.2 + d.2)
          = some k ∧ k ≤ gc + 1)) := by
  have hinvres := expandDir_inv start goal [] current gc st d hbase hgc hccl hreach hgcb hd
  obtain ⟨hbase', hgc', _, _⟩ := hinvres
  unfold expandDir
  dsimp only
  unfold expandDir at hbase' hgc'
  dsimp only at hbase' hgc'
  split
  · -- out of bounds or already closed (obstacles are empty)
    rename_i hcond
    refine ⟨⟨hbase, hdisj, hopen_nodup, hclosed_nodup, hmem_valid, hf_def, hg_lb, hdom_g,
      hclosed_exact⟩, rfl, fun n hn => hn, fun n k hk => ⟨k, hk, le_refl _⟩, hgc, ?_⟩
    intro hval
    rcases hcond with h1 | h2 | h3
    · exact absurd hval h1
    · exact Or.inl h2
    · cases h3
  · rename_i hcond0
    rw [if_neg hcond0] at hbase' hgc'
    have hcond := hcond0
    push_neg at hcond
    obtain ⟨hvalid, hncl, _⟩ := hcond
    have hnec : (current.1 + d.1, current.2 + d.2) ≠ current := by
      intro h
      rw [← h] at hccl
      exact hncl hccl
    have hmn1 : manhattan current (current.1 + d.1, current.2 + d.2) = 1 :=
      manhattan_neighbor current hd
    have hnb_lb : manhattan start (current.1 + d.1, current.2 + d.2) ≤ gc + 1 := by
      have := manhattan_triangle start current (current.1 + d.1, current.2 + d.2)
      omega
    split
    · -- the neighbour is already open
      rename_i hopen
      rw [if_pos hopen] at hbase' hgc'
      split
      · -- skipped: its score is already at most gc + 1
        rename_i hskip
        refine ⟨⟨hbase, hdisj, hopen_nodup, hclosed_nodup, hmem_valid, hf_def, hg_lb, hdom_g,
          hclosed_exact⟩, rfl, fun n hn => hn, fun n k hk => ⟨k, hk, le_refl _⟩, hgc, ?_⟩
        intro _
        rcases hg : st.g_score (current.1 + d.1, current.2 + d.2) with _ | gn
        · rw [hg] at hskip
          simp at hskip
        · rw [hg] at hskip
          simp only [ge_iff_le, decide_eq_true_eq] at hskip
          exact Or.inr ⟨hopen, gn, rfl, by omega⟩
      · -- relaxed to gc + 1
        rename_i hskip
        rw [if_neg hskip] at hbase' hgc'
        have hgn : ∃ gn, st.g_score (current.1 + d.1, current.2 + d.2) = some gn := by
          rcases hg : st.g_score (current.1 + d.1, current.2 + d.2) with _ | gn
          · exact absurd hg (hbase.open_g _ hopen)
          · exact ⟨gn, rfl⟩
        obtain ⟨gn, hgns⟩ := hgn
        have hlt : gc + 1 < gn := by
          rw [hgns] at hskip
          simp only [ge_iff_le, decide_eq_true_eq] at hskip
          omega
        refine ⟨⟨hbase', ?_, hopen_nodup, hclosed_nodup, hmem_valid, ?_, ?_, ?_, ?_⟩,
          rfl, fun n hn => hn, ?_, hgc', ?_⟩
        · exact hdisj
        · intro n k hk
          by_cases hn2 : n = (current.1 + d.1, current.2 + d.2)
          · subst hn2
            have hk2 : gc + 1 = k := by simpa using hk
            subst hk2
            simp
          · simp only [if_neg hn2] at hk ⊢
            exact hf_def n k hk
        · intro n k hk
          by_cases hn2 : n = (current.1 + d.1, current.2 + d.2)
          · subst hn2
            have hk2 : gc + 1 = k := by simpa using hk
            omega
          · simp only [if_neg hn2] at hk
            exact hg_lb n k hk
        · intro n k hk
          by_cases hn2 : n = (current.1 + d.1, current.2 + d.2)
          · subst hn2
            exact Or.inl hopen
          · simp only [if_neg hn2] at hk
            exact hdom_g n k hk
        · intro n hn
          have hne : n ≠ (current.1 + d.1, current.2 + d.2) := by
            intro h
            rw [← h] at hncl
            exact hncl hn
          simp only [if_neg hne]
          exact hclosed_exact n hn
        · intro n k hk
          by_cases hn2 : n = (current.1 + d.1, current.2 + d.2)
          · subst hn2
            rw [hgns] at hk
            rw [Option.some_inj] at hk
            subst hk
            exact ⟨gc + 1, by simp, by omega⟩
          · exact ⟨k, by simpa [hn2] using hk, le_refl _⟩
        · intro _
          exact Or.inr ⟨hopen, gc + 1, by simp, le_refl _⟩
    · -- appended to the open list with score gc + 1
      rename_i hopen
      rw [if_neg hopen] at hbase' hgc'
      refine ⟨⟨hbase', ?_, ?_, hclosed_nodup, ?_, ?_, ?_, ?_, ?_⟩,
        rfl, fun n hn => List.mem_append_left _ hn, ?_, hgc', ?_⟩
      · intro n hn
        rcases List.mem_append.1 hn with h | h
        · exact hdisj n h
        · rw [List.mem_singleton] at h
          subst h
          exact hncl
      · rw [List.nodup_append]
        refine ⟨hopen_nodup, List.nodup_singleton _, ?_⟩
        intro n hn hn2
        rw [List.mem_singleton] at hn2
        subst hn2
        exact hopen hn
      · intro n hn
        rcases hn with hn | hn
        · rcases List.mem_append.1 hn with h | h
          · exact hmem_valid n (Or.inl h)
          · rw [List.mem_singleton] at h
            subst h
            exact hvalid
        · exact hmem_valid n (Or.inr hn)
      · intro n k hk
        by_cases hn2 : n = (current.1 + d.1, current.2 + d.2)
        · subst hn2
          have hk2 : gc + 1 = k := by simpa using hk
          subst hk2
          simp
        · simp only [if_neg hn2] at hk ⊢
          exact hf_def n k hk
      · intro n k hk
        by_cases hn2 : n = (current.1 + d.1, current.2 + d.2)
        · subst hn2
          have hk2 : gc + 1 = k := by simpa using hk
          omega
        · simp only [if_neg hn2] at hk
          exact hg_lb n k hk
      · intro n k hk
        by_cases hn2 : n = (current.1 + d.1, current.2 + d.2)
        · subst hn2
          exact Or.inl (List.mem_append_right _ (List.mem_singleton.2 rfl))
        · simp only [if_neg hn2] at hk
          rcases hdom_g n k hk with h | h
          · exact Or.inl (List.mem_append_left _ h)
          · exact Or.inr h
      · intro n hn
        have hne : n ≠ (current.1 + d.1, current.2 + d.2) := by
          intro h
          rw [← h] at hncl
          exact hncl hn
        simp only [if_neg hne]
        exact hclosed_exact n hn
      · intro n k hk
        by_cases hn2 : n = (current.1 + d.1, current.2 + d.2)
        · subst hn2
          rcases hg : st.g_score (current.1 + d.1, current.2 + d.2) with _ | gn
          · exact absurd hk (by rw [hg]; intro h; cases h)
          · rcases hdom_g _ gn hg with h | h
            · exact absurd h hopen
            · exact absurd h hncl
        · exact ⟨k, by simpa [hn2] using hk, le_refl _⟩
      · intro _
        refine Or.inr ⟨List.mem_append_right _ (List.mem_singleton.2 rfl), gc + 1, by simp,
          le_refl _⟩

/-- The neighbour-expansion relation of the optimality invariant: the
in-bounds neighbour of `u` in direction `d` is already closed, or open with a
g-score at most `B`. -/
def expanded (st : AState) (u d : Pos) (B : ℕ) : Prop :=
  is_valid_position (u.1 + d.1, u.2 + d.2) = true →
  (u.1 + d.1, u.2 + d.2) ∈ st.closedSet ∨
  ((u.1 + d.1, u.2 + d.2) ∈ st.openSet ∧
    ∃ k, st.g_score (u.1 + d.1, u.2 + d.2) = some k ∧ k ≤ B)

/-- The optimality invariant without its closed-expansion and goal fields:
what a single neighbour step preserves wholesale. -/
structure AOptCore (start goal : Pos) (st : AState) : Prop where
  base : CameFromInv start [] st
  disj : ∀ n ∈ st.openSet, n ∉ st.closedSet
  open_nodup : st.openSet.Nodup
  closed_nodup : st.closedSet.Nodup
  mem_valid : ∀ n, n ∈ st.openSet ∨ n ∈ st.closedSet → is_valid_position n = true
  f_def : ∀ n k, st.g_score n = some k → st.f_score n = some (k + manhattan n goal)
  g_lb : ∀ n k, st.g_score n = some k → manhattan start n ≤ k
  dom_g : ∀ n k, st.g_score n = some k → n ∈ st.openSet ∨ n ∈ st.closedSet
  closed_exact : ∀ n ∈ st.closedSet, st.g_score n = some (manhattan start n)

/-- The expansion relation survives a step that keeps the closed set, only
adds open nodes, and only improves g-scores. -/
theorem expanded_mono {st st' : AState}
    (hcl : st'.closedSet = st.closedSet)
    (hop : ∀ n ∈ st.openSet, n ∈ st'.openSet)
    (hg : ∀ n k, st.g_score n = some k → ∃ k', st'.g_score n = some k' ∧ k' ≤ k)
    {u d : Pos} {B : ℕ} (h : expanded st u d B) : expanded st' u d B := by
  intro hval
  rcases h hval with h1 | ⟨h2, k, hk, hkb⟩
  · rw [hcl]
    exact Or.inl h1
  · obtain ⟨k', hk', hk'b⟩ := hg _ k hk
    exact Or.inr ⟨hop _ h2, k', hk', by omega⟩

/-- One full A* iteration body on the empty obstacle list (close the popped
node, expand its four neighbours) preserves the optimality invariant and
pushes the node onto the closed list. -/
theorem expandNode_opt (start goal : Pos) (st : AState) (current : Pos)
    (inv : AOpt start goal st)
    (hcuro : current ∈ st.openSet)
    (hcur_ne : current ≠ goal)
    (hgc : st.g_score current = some (manhattan start current)) :
    AOpt start goal (expandNode goal [] st current) ∧
    (expandNode goal [] st current).closedSet = current :: st.closedSet := by
  have hreach : ReachFree [] start current := inv.base.open_reach current hcuro
  have hcncl : current ∉ st.closedSet := inv.disj current hcuro
  have hgb : manhattan start current ≤ st.closedSet.length :=
    inv.base.g_bound current _ hgc
  have hst1core : AOptCore start goal
      { st with openSet := st.openSet.erase current,
                closedSet := current :: st.closedSet } := by
    constructor
    · constructor
      · exact inv.base.g_start
      · exact inv.base.cf_start
      · intro n hn
        exact inv.base.open_g n (List.erase_subset _ _ hn)
      · exact inv.base.cf_g
      · exact inv.base.cf_adj
      · exact inv.base.g_cf
      · intro n m hm
        exact List.mem_cons_of_mem _ (inv.base.cf_closed n m hm)
      · intro n k hk
        have := inv.base.g_bound n k hk
        simp only [List.length_cons]
        omega
      · intro n hn
        exact inv.base.open_reach n (List.erase_subset _ _ hn)
      · by_cases hsc : start = current
        · exact Or.inr (hsc ▸ List.mem_cons_self _ _)
        · rcases inv.base.start_mem with hs | hs
          · exact Or.inl ((List.mem_erase_of_ne hsc).2 hs)
          · exact Or.inr (List.mem_cons_of_mem _ hs)
    · intro n hn
      obtain ⟨hne, hmem⟩ := (inv.open_nodup.mem_erase_iff).1 hn
      simp only [List.mem_cons, not_or]
      exact ⟨hne, inv.disj n hmem⟩
    · exact inv.open_nodup.erase current
    · exact List.nodup_cons.2 ⟨hcncl, inv.closed_nodup⟩
    · intro n hn
      rcases hn with hn | hn
      · exact inv.mem_valid n (Or.inl (List.erase_subset _ _ hn))
      · rcases List.mem_cons.1 hn with rfl | hn2
        · exact inv.mem_valid n (Or.inl hcuro)
        · exact inv.mem_valid n (Or.inr hn2)
    · exact inv.f_def
    · exact inv.g_lb
    · intro n k hk
      rcases inv.dom_g n k hk with h | h
      · by_cases hnc : n = current
        · subst hnc
          exact Or.inr (List.mem_cons_self _ _)
        · exact Or.inl ((List.mem_erase_of_ne hnc).2 h)
      · exact Or.inr (List.mem_cons_of_mem _ h)
    · intro n hn
      rcases List.mem_cons.1 hn with rfl | hn2
      · exact hgc
      · exact inv.closed_exact n hn2
  have hst1old : ∀ u ∈ st.closedSet, ∀ d' ∈ dirList,
      expanded { st with openSet := st.openSet.erase current,
                         closedSet := current :: st.closedSet } u d'
        (manhattan start u + 1) := by
    intro u hu d' hd' hval
    rcases inv.closed_exp u hu d' hd' hval with h1 | ⟨h2, k, hk, hkb⟩
    · exact Or.inl (List.mem_cons_of_mem _ h1)
    · by_cases hne : ((u.1 + d'.1, u.2 + d'.2) : Pos) = current
      · rw [hne]
        exact Or.inl (List.mem_cons_self _ _)
      · exact Or.inr ⟨(List.mem_erase_of_ne hne).2 h2, k, hk, hkb⟩
  have main : ∀ (ds : List Pos), (∀ x ∈ ds, x ∈ dirList) →
      ∀ st1 : AState, AOptCore start goal st1 →
        st1.closedSet = current :: st.closedSet →
        st1.g_score current = some (manhattan start current) →
        (∀ u ∈ st.closedSet, ∀ d' ∈ dirList, expanded st1 u d' (manhattan start u + 1)) →
        (∀ d' ∈ dirList, d' ∉ ds →
          expanded st1 current d' (manhattan start current + 1)) →
        AOptCore start goal
            (ds.foldl (expandDir goal [] current (manhattan start current)) st1) ∧
        (ds.foldl (expandDir goal [] current (manhattan start current)) st1).closedSet =
          current :: st.closedSet ∧
        (∀ u ∈ st.closedSet, ∀ d' ∈ dirList,
          expanded (ds.foldl (expandDir goal [] current (manhattan start current)) st1) u d'
            (manhattan start u + 1)) ∧
        (∀ d' ∈ dirList,
          expanded (ds.foldl (expandDir goal [] current (manhattan start current)) st1)
            current d' (manhattan start current + 1)) := by
    intro ds
    induction ds with
    | nil =>
      intro _ st1 h1 h2 h3 h4 h5
      exact ⟨h1, h2, h4, fun d' hd' => h5 d' hd' (List.not_mem_nil _)⟩
    | cons d ds ih =>
      intro hds st1 h1 h2 h3 h4 h5
      have hdmem : d ∈ dirList := hds d (List.mem_cons_self _ _)
      have hccl1 : current ∈ st1.closedSet := by
        rw [h2]
        exact List.mem_cons_self _ _
      have hgcb1 : manhattan start current + 1 ≤ st1.closedSet.length := by
        rw [h2]
        simp only [List.length_cons]
        omega
      obtain ⟨⟨hb, hdj, hon, hcn, hmv, hfd, hglb, hdg, hce⟩, hcleq, hopsub, hgmono, hgcur,
          hexp⟩ := expandDir_opt start goal current (manhattan start current) st1 d hdmem
        h1.base h1.disj h1.open_nodup h1.closed_nodup h1.mem_valid h1.f_def h1.g_lb
        h1.dom_g h1.closed_exact h3 hccl1 hreach rfl hgcb1
      have hst2cl : (expandDir goal [] current (manhattan start current) st1 d).closedSet
          = current :: st.closedSet := hcleq.trans h2
      have h4' : ∀ u ∈ st.closedSet, ∀ d' ∈ dirList,
          expanded (expandDir goal [] current (manhattan start current) st1 d) u d'
            (manhattan start u + 1) := by
        intro u hu d' hd'
        exact expanded_mono hcleq hopsub hgmono (h4 u hu d' hd')
      have h5' : ∀ d' ∈ dirList, d' ∉ ds →
          expanded (expandDir goal [] current (manhattan start current) st1 d) current d'
            (manhattan start current + 1) := by
        intro d' hd' hnotin
        by_cases hdd : d' = d
        · subst hdd
          exact hexp
        · have hnix : d' ∉ d :: ds := by
            intro h
            rcases List.mem_cons.1 h with h | h
            · exact hdd h
            · exact hnotin h
          exact expanded_mono hcleq hopsub hgmono (h5 d' hd' hnix)
      simp only [List.foldl_cons]
      exact ih (fun x hx => hds x (List.mem_cons_of_mem _ hx)) _
        ⟨hb, hdj, hon, hcn, hmv, hfd, hglb, hdg, hce⟩ hst2cl hgcur h4' h5'
  have hmain := main dirList (fun d hd => hd)
    { st with openSet := st.openSet.erase current, closedSet := current :: st.closedSet }
    hst1core rfl hgc hst1old (fun d' hd' hx => absurd hd' hx)
  have hgd : (st.g_score current).getD 0 = manhattan start current := by
    rw [hgc]
    rfl
  obtain ⟨hcore, hcl, hold, hcur⟩ := hmain
  unfold expandNode
  dsimp only
  rw [hgd]
  refine ⟨⟨hcore.base, hcore.disj, hcore.open_nodup, hcore.closed_nodup, hcore.mem_valid,
    hcore.f_def, hcore.g_lb, hcore.dom_g, hcore.closed_exact, ?_, ?_⟩, hcl⟩
  · intro u hu d' hd'
    rw [hcl] at hu
    rcases List.mem_cons.1 hu with rfl | hu2
    · exact hcur d' hd'
    · exact hold u hu2 d' hd'
  · rw [hcl]
    intro h
    rcases List.mem_cons.1 h with h | h
    · exact hcur_ne h.symm
    · exact inv.goal_unclosed h

/-- A duplicate-free list of in-bounds grid cells has at most
`GRID_WIDTH * GRID_HEIGHT = 1200` members. -/
theorem valid_nodup_length_le (l : List Pos) (hnd : l.Nodup)
    (hval : ∀ p ∈ l, is_valid_position p = true) : l.length ≤ 1200 := by
  have hinj : ∀ x ∈ l, ∀ y ∈ l,
      x.1.toNat * 30 + x.2.toNat = y.1.toNat * 30 + y.2.toNat → x = y := by
    intro x hx y hy hxy
    have hxv := (is_valid_position_iff x).1 (hval x hx)
    have hyv := (is_valid_position_iff y).1 (hval y hy)
    have h1 : x.1 = y.1 := by omega
    have h2 : x.2 = y.2 := by omega
    exact Prod.ext_iff.2 ⟨h1, h2⟩
  have hmapnd : (l.map (fun p : Pos => p.1.toNat * 30 + p.2.toNat)).Nodup :=
    hnd.map_on hinj
  have hsub : (l.map (fun p : Pos => p.1.toNat * 30 + p.2.toNat)).toFinset ⊆
      Finset.range 1200 := by
    intro x hx
    rw [List.mem_toFinset] at hx
    obtain ⟨p, hp, rfl⟩ := List.mem_map.1 hx
    have hpv := (is_valid_position_iff p).1 (hval p hp)
    rw [Finset.mem_range]
    omega
  have hle : (l.map (fun p : Pos => p.1.toNat * 30 + p.2.toNat)).toFinset.card ≤ 1200 := by
    have h := Finset.card_le_card hsub
    simpa using h
  rw [List.toFinset_card_of_nodup hmapnd, List.length_map] at hle
  exact hle

/-- The initial A* state satisfies the full optimality invariant. -/
theorem astar_init_opt (start goal : Pos)
    (hstart : is_valid_position start = true) (hne : start ≠ goal) :
    AOpt start goal
      { openSet := [start]
        closedSet := []
        came_from := fun _ => none
        g_score := fun p => if p = start then some 0 else none
        f_score := fun p => if p = start then some (manhattan start goal) else none } := by
  constructor
  · constructor
    · simp
    · rfl
    · intro n hn
      rw [List.mem_singleton] at hn
      subst hn
      simp
    · intro n m hm
      cases hm
    · intro n m hm
      cases hm
    · intro n k hk hns
      dsimp only at hk
      rw [if_neg hns] at hk
      cases hk
    · intro n m hm
      cases hm
    · intro n k hk
      dsimp only at hk
      by_cases hn2 : n = start
      · rw [if_pos hn2] at hk
        injection hk with h
        omega
      · rw [if_neg hn2] at hk
        cases hk
    · intro n hn
      rw [List.mem_singleton] at hn
      subst hn
      exact ReachFree.refl
    · exact Or.inl (List.mem_singleton.2 rfl)
  · intro n _
    exact List.not_mem_nil n
  · exact List.nodup_singleton _
  · exact List.nodup_nil
  · intro n hn
    rcases hn with hn | hn
    · rw [List.mem_singleton] at hn
      subst hn
      exact hstart
    · cases hn
  · intro n k hk
    dsimp only at hk ⊢
    by_cases hn2 : n = start
    · subst hn2
      rw [if_pos rfl] at hk ⊢
      injection hk with h
      subst h
      rw [manhattan_comm]
      simp
    · rw [if_neg hn2] at hk
      cases hk
  · intro n k hk
    dsimp only at hk
    by_cases hn2 : n = start
    · subst hn2
      rw [if_pos rfl] at hk
      injection hk with h
      rw [manhattan_self]
      omega
    · rw [if_neg hn2] at hk
      cases hk
  · intro n k hk
    dsimp only at hk
    by_cases hn2 : n = start
    · subst hn2
      exact Or.inl (List.mem_singleton.2 rfl)
    · rw [if_neg hn2] at hk
      cases hk
  · intro n hn
    cases hn
  · intro u hu
    cases hu
  · exact List.not_mem_nil goal

/-- From any state satisfying the optimality invariant with the fuel budget
intact, the obstacle-free A* loop succeeds and its path has exactly
`manhattan start goal + 1` cells. -/
theorem astarLoop_opt (start goal : Pos)
    (hstart : is_valid_position start = true)
    (hgoal : is_valid_position goal = true) :
    ∀ (fuel : ℕ) (st : AState), AOpt start goal st →
      st.closedSet.length + fuel = searchFuel →
      ∃ p, astarLoop goal [] fuel st = some p ∧
        p.length = manhattan start goal + 1 := by
  intro fuel
  induction fuel with
  | zero =>
    intro st inv hsum
    exfalso
    have hlen : st.closedSet.length ≤ 1200 :=
      valid_nodup_length_le st.closedSet inv.closed_nodup
        (fun p hp => inv.mem_valid p (Or.inr hp))
    have hsf : searchFuel = 1202 := rfl
    omega
  | succ fuel ih =>
    intro st inv hsum
    obtain ⟨y, hyo, -, -⟩ := astar_intercept start goal hstart st inv
      (manhattan start goal) goal rfl hgoal inv.goal_unclosed
    rcases hos : st.openSet with _ | ⟨x, xs⟩
    · rw [hos] at hyo
      cases hyo
    · have hpop := astar_exact_pop start goal hstart st inv x xs hos
      rw [astarLoop, hos]
      dsimp only
      by_cases hcg : minBy st.f_score x xs = goal
      · rw [if_pos hcg]
        rw [hcg] at hpop
        have hbnd : manhattan start goal ≤ searchFuel := by
          have h1 := inv.base.g_bound goal _ hpop
          omega
        obtain ⟨l, hrec, -, hlen, -, -⟩ :=
          reconstructAux_spec start [] st inv.base (manhattan start goal) goal []
            searchFuel hpop hbnd
        refine ⟨reconstruct_path st.came_from (minBy st.f_score x xs), rfl, ?_⟩
        rw [hcg]
        unfold reconstruct_path
        rw [hrec]
        simpa using hlen
      · rw [if_neg hcg]
        have hcuro : minBy st.f_score x xs ∈ st.openSet := by
          rw [hos]
          exact minBy_mem _ _ _
        obtain ⟨inv', hcl'⟩ :=
          expandNode_opt start goal st (minBy st.f_score x xs) inv hcuro hcg hpop
        refine ih _ inv' ?_
        rw [hcl']
        simp only [List.length_cons]
        omega

/-- On an empty obstacle list, A* between distinct in-bounds cells succeeds
with a path of exactly `manhattan start goal + 1` cells. -/
theorem find_path_astar_opt (start goal : Pos)
    (hstart : is_valid_position start = true)
    (hgoal : is_valid_position goal = true)
    (hne : start ≠ goal) :
    ∃ p, find_path_astar start goal [] = some p ∧
      p.length = manhattan start goal + 1 := by
  unfold find_path_astar
  rw [if_neg hne]
  exact astarLoop_opt start goal hstart hgoal searchFuel _
    (astar_init_opt start goal hstart hne) (by simp)

/-! ## The BFS optimality invariant (obstacle-free runs)

BFS explores the grid in level order: every queued path is a geodesic to its
endpoint, path lengths along the queue never decrease and span at most two
levels, and every dequeued cell has all its in-bounds neighbours already
visited (none of them the goal, or the search would have returned). -/

/-- Any relation that holds between all pairs holds pairwise on any list. -/
theorem pairwise_of_total {α : Type} {R : α → α → Prop} (h : ∀ a b, R a b)
    (l : List α) : l.Pairwise R := by
  induction l with
  | nil => exact List.Pairwise.nil
  | cons a l ih => exact List.Pairwise.cons (fun b _ => h a b) ih

structure BfsOpt (start goal : Pos) (queue : List (Pos × List Pos))
    (visited : List Pos) : Prop where
  entry_len : ∀ e ∈ queue, e.2.length = manhattan start e.1 + 1
  near_sorted : queue.Pairwise
    (fun e f => e.2.length ≤ f.2.length ∧ f.2.length ≤ e.2.length + 1)
  vis_valid : ∀ v ∈ visited, is_valid_position v = true
  vis_nodup : visited.Nodup
  queue_sub : ∀ e ∈ queue, e.1 ∈ visited
  goal_unvisited : goal ∉ visited
  start_vis : start ∈ visited
  deq_exp : ∀ v ∈ visited, (∃ pv, (v, pv) ∈ queue) ∨
    ∀ d ∈ dirList, is_valid_position (v.1 + d.1, v.2 + d.2) = true →
      (v.1 + d.1, v.2 + d.2) ∈ visited ∧ (v.1 + d.1, v.2 + d.2) ≠ goal

/-- One obstacle-free BFS expansion step, precisely: an early return yields
the dequeued path extended by the goal (found as a neighbour of the dequeued
cell), while a completed scan appends exactly the fresh in-bounds neighbours
to the queue and the visited list in lockstep, leaving every in-bounds
neighbour of the dequeued cell visited and none of them equal to the goal. -/
theorem bfsExpand_opt (goal c : Pos) (p : List Pos) :
    ∀ (ds : List Pos) (queue : List (Pos × List Pos)) (visited : List Pos),
      (∀ found, bfsExpand goal [] c p ds queue visited = Except.error found →
        found = p ++ [goal] ∧ ∃ d ∈ ds, ((c.1 + d.1, c.2 + d.2) : Pos) = goal) ∧
      (∀ q' v', bfsExpand goal [] c p ds queue visited = Except.ok (q', v') →
        ∃ new : List Pos,
          q' = queue ++ new.map (fun n => (n, p ++ [n])) ∧
          v' = visited ++ new ∧
          (∀ n ∈ new, is_valid_position n = true ∧ n ∉ visited ∧
            ∃ d ∈ ds, n = ((c.1 + d.1, c.2 + d.2) : Pos)) ∧
          new.Nodup ∧
          (∀ d ∈ ds, is_valid_position ((c.1 + d.1, c.2 + d.2) : Pos) = true →
            ((c.1 + d.1, c.2 + d.2) : Pos) ∈ visited ++ new) ∧
          (∀ d ∈ ds, ((c.1 + d.1, c.2 + d.2) : Pos) ≠ goal)) := by
  intro ds
  induction ds with
  | nil =>
    intro queue visited
    constructor
    · intro found hfound
      cases hfound
    · intro q' v' hok
      cases hok
      exact ⟨[], by simp, by simp, fun n hn => absurd hn (List.not_mem_nil _),
        List.nodup_nil, fun d hd => absurd hd (List.not_mem_nil _),
        fun d hd => absurd hd (List.not_mem_nil _)⟩
  | cons d ds ih =>
    intro queue visited
    rw [bfsExpand]
    split
    · rename_i hgoal
      constructor
      · intro found hfound
        cases hfound
        exact ⟨by rw [hgoal], d, List.mem_cons_self _ _, hgoal⟩
      · intro q' v' hok
        cases hok
    · rename_i hgoal
      split
      · rename_i hcond
        obtain ⟨herr, hok⟩ := ih
          (queue ++ [((c.1 + d.1, c.2 + d.2), p ++ [(c.1 + d.1, c.2 + d.2)])])
          (visited ++ [(c.1 + d.1, c.2 + d.2)])
        constructor
        · intro found hfound
          obtain ⟨h1, d', hd', h2⟩ := herr found hfound
          exact ⟨h1, d', List.mem_cons_of_mem _ hd', h2⟩
        · intro q' v' hq
          obtain ⟨new, hq', hv', hnew, hnnd, hcomp, hng⟩ := hok q' v' hq
          refine ⟨(c.1 + d.1, c.2 + d.2) :: new, ?_, ?_, ?_, ?_, ?_, ?_⟩
          · rw [hq']
            simp
          · rw [hv']
            simp
          · intro n hn
            rcases List.mem_cons.1 hn with rfl | hn2
            · exact ⟨hcond.1, hcond.2.1, d, List.mem_cons_self _ _, rfl⟩
            · obtain ⟨ha, hb, d', hd', hc2⟩ := hnew n hn2
              refine ⟨ha, ?_, d', List.mem_cons_of_mem _ hd', hc2⟩
              intro hmem
              exact hb (List.mem_append_left _ hmem)
          · rw [List.nodup_cons]
            refine ⟨?_, hnnd⟩
            intro hmem
            obtain ⟨-, hb, -⟩ := hnew _ hmem
            exact hb (List.mem_append_right _ (List.mem_singleton.2 rfl))
          · intro d' hd' hval
            rcases List.mem_cons.1 hd' with rfl | hd2
            · exact List.mem_append.2 (Or.inr (List.mem_cons_self _ _))
            · have h := hcomp d' hd2 hval
              simp only [List.mem_append, List.mem_cons, List.mem_singleton] at h ⊢
              tauto
          · intro d' hd'
            rcases List.mem_cons.1 hd' with rfl | hd2
            · exact hgoal
            · exact hng d' hd2
      · rename_i hcond
        obtain ⟨herr, hok⟩ := ih queue visited
        constructor
        · intro found hfound
          obtain ⟨h1, d', hd', h2⟩ := herr found hfound
          exact ⟨h1, d', List.mem_cons_of_mem _ hd', h2⟩
        · intro q' v' hq
          obtain ⟨new, hq', hv', hnew, hnnd, hcomp, hng⟩ := hok q' v' hq
          refine ⟨new, hq', hv', ?_, hnnd, ?_, ?_⟩
          · intro n hn
            obtain ⟨ha, hb, d', hd', hc2⟩ := hnew n hn
            exact ⟨ha, hb, d', List.mem_cons_of_mem _ hd', hc2⟩
          · intro d' hd' hval
            rcases List.mem_cons.1 hd' with rfl | hd2
            · by_cases hv : ((c.1 + d'.1, c.2 + d'.2) : Pos) ∈ visited
              · exact List.mem_append_left _ hv
              · exact absurd ⟨hval, hv, List.not_mem_nil _⟩ hcond
            · exact hcomp d' hd2 hval
          · intro d' hd'
            rcases List.mem_cons.1 hd' with rfl | hd2
            · exact hgoal
            · exact hng d' hd2

/-- The BFS interception lemma: towards any in-bounds cell that has not yet
been dequeued there is a queued entry lying on a geodesic from the start. -/
theorem bfs_intercept (start goal : Pos) (hstart : is_valid_position start = true)
    (queue : List (Pos × List Pos)) (visited : List Pos)
    (inv : BfsOpt start goal queue visited) :
    ∀ (m : ℕ) (z : Pos), manhattan start z = m → is_valid_position z = true →
      (z ∉ visited ∨ ∃ pz, (z, pz) ∈ queue) →
      ∃ y py, (y, py) ∈ queue ∧
        manhattan start y + manhattan y z = manhattan start z := by
  intro m
  induction m using Nat.strong_induction_on with
  | _ m ih =>
    intro z hm hz hnd
    rcases Nat.eq_zero_or_pos m with hm0 | hmpos
    · subst hm0
      have hzs : z = start := by
        by_contra hne
        have := manhattan_pos (a := start) (b := z) (fun h => hne h.symm)
        omega
      subst hzs
      rcases hnd with h | ⟨pz, hpz⟩
      · exact absurd inv.start_vis h
      · exact ⟨z, pz, hpz, by simp [manhattan_self]⟩
    · obtain ⟨d, hd, hnval, hnm⟩ := toward_neighbor start z hstart hz (by omega)
      by_cases hdq : ((z.1 + d.1, z.2 + d.2) : Pos) ∈ visited ∧
          ¬∃ pn, (((z.1 + d.1, z.2 + d.2) : Pos), pn) ∈ queue
      · obtain ⟨hnvis, hnq⟩ := hdq
        rcases inv.deq_exp _ hnvis with ⟨pn, hpn⟩ | hexp
        · exact absurd ⟨pn, hpn⟩ hnq
        · have hnd2 : ((-d.1, -d.2) : Pos) ∈ dirList := neg_mem_dirList hd
          have hzz : (((z.1 + d.1) + -d.1, (z.2 + d.2) + -d.2) : Pos) = z := by
            simp
          have h2 := hexp (-d.1, -d.2) hnd2
          rw [hzz] at h2
          obtain ⟨hzvis, -⟩ := h2 hz
          rcases hnd with h | ⟨pz, hpz⟩
          · exact absurd hzvis h
          · exact ⟨z, pz, hpz, by simp [manhattan_self]⟩
      · have hnd3 : ((z.1 + d.1, z.2 + d.2) : Pos) ∉ visited ∨
            ∃ pn, (((z.1 + d.1, z.2 + d.2) : Pos), pn) ∈ queue := by
          by_cases h1 : ((z.1 + d.1, z.2 + d.2) : Pos) ∈ visited
          · right
            by_contra h2
            exact hdq ⟨h1, h2⟩
          · exact Or.inl h1
        obtain ⟨y, py, hymem, hysum⟩ := ih (m - 1) (by omega) (z.1 + d.1, z.2 + d.2)
          (by omega) hnval hnd3
        refine ⟨y, py, hymem, ?_⟩
        have ht1 := manhattan_triangle y (z.1 + d.1, z.2 + d.2) z
        have ht2 := manhattan_triangle start y z
        have hcm : manhattan (z.1 + d.1, z.2 + d.2) z = 1 := by
          rw [manhattan_comm]
          exact manhattan_neighbor z hd
        omega

/-- From any state satisfying the BFS optimality invariant with enough fuel
for the unvisited cells, the obstacle-free BFS loop succeeds and its path
has exactly `manhattan start goal + 1` cells. -/
theorem bfsLoop_opt (start goal : Pos)
    (hstart : is_valid_position start = true)
    (hgoal : is_valid_position goal = true) :
    ∀ (fuel : ℕ) (queue : List (Pos × List Pos)) (visited : List Pos),
      BfsOpt start goal queue visited →
      queue.length + (1200 - visited.length) ≤ fuel →
      ∃ q, bfsLoop goal [] fuel queue visited = some q ∧
        q.length = manhattan start goal + 1 := by
  intro fuel
  induction fuel with
  | zero =>
    intro queue visited inv hmeas
    exfalso
    obtain ⟨y, py, hymem, -⟩ := bfs_intercept start goal hstart queue visited inv
      (manhattan start goal) goal rfl hgoal (Or.inl inv.goal_unvisited)
    rcases queue with _ | ⟨e, rest⟩
    · cases hymem
    · simp only [List.length_cons] at hmeas
      omega
  | succ fuel ih =>
    intro queue visited inv hmeas
    obtain ⟨yw, pyw, hywmem, hywsum⟩ := bfs_intercept start goal hstart queue visited
      inv (manhattan start goal) goal rfl hgoal (Or.inl inv.goal_unvisited)
    rcases queue with _ | ⟨⟨c, p⟩, rest⟩
    · cases hywmem
    · rw [bfsLoop]
      have hplen : p.length = manhattan start c + 1 :=
        inv.entry_len (c, p) (List.mem_cons_self _ _)
      have hfrontmin : ∀ e ∈ rest, p.length ≤ e.2.length ∧ e.2.length ≤ p.length + 1 :=
        fun e he => (List.pairwise_cons.1 inv.near_sorted).1 e he
      have hspec := bfsExpand_opt goal c p dirList rest visited
      rcases hres : bfsExpand goal [] c p dirList rest visited with found | ⟨q', v'⟩
      · obtain ⟨hfound, d, hd, hcd⟩ := hspec.1 found hres
        refine ⟨found, rfl, ?_⟩
        rw [hfound]
        have hstep := manhattan_step start c hd
        rw [hcd] at hstep
        have hwlen : pyw.length = manhattan start yw + 1 :=
          inv.entry_len (yw, pyw) hywmem
        have hwmin : p.length ≤ pyw.length := by
          rcases List.mem_cons.1 hywmem with heq | hmem
          · injection heq with h1 h2
            subst h2
            exact le_refl _
          · exact (hfrontmin _ hmem).1
        simp only [List.length_append, List.length_singleton]
        omega
      · obtain ⟨new, hq', hv', hnew, hnnd, hcomp, hng⟩ := hspec.2 q' v' hres
        have hnewlen : ∀ n ∈ new, manhattan start n = manhattan start c + 1 := by
          intro n hn
          obtain ⟨hval, hnvis, d, hd, rfl⟩ := hnew n hn
          obtain ⟨y, py, hymem, hysum⟩ := bfs_intercept start goal hstart
            ((c, p) :: rest) visited inv (manhattan start (c.1 + d.1, c.2 + d.2))
            (c.1 + d.1, c.2 + d.2) rfl hval (Or.inl hnvis)
          have hylen : py.length = manhattan start y + 1 := inv.entry_len (y, py) hymem
          have hymin : p.length ≤ py.length := by
            rcases List.mem_cons.1 hymem with heq | hmem
            · injection heq with h1 h2
              subst h2
              exact le_refl _
            · exact (hfrontmin _ hmem).1
          have hstep := manhattan_step start c hd
          omega
        have inv' : BfsOpt start goal q' v' := by
          constructor
          · intro e he
            rw [hq'] at he
            rcases List.mem_append.1 he with h | h
            · exact inv.entry_len e (List.mem_cons_of_mem _ h)
            · obtain ⟨n, hn, rfl⟩ := List.mem_map.1 h
              have h2 := hnewlen n hn
              simp only [List.length_append, List.length_singleton]
              omega
          · rw [hq']
            rw [List.pairwise_append]
            refine ⟨(List.pairwise_cons.1 inv.near_sorted).2, ?_, ?_⟩
            · rw [List.pairwise_map]
              refine pairwise_of_total (fun a b => ?_) new
              simp only [List.length_append, List.length_singleton]
              omega
            · intro e he f hf
              obtain ⟨n, hn, rfl⟩ := List.mem_map.1 hf
              have h1 := hfrontmin e he
              simp only [List.length_append, List.length_singleton]
              omega
          · intro v hv
            rw [hv'] at hv
            rcases List.mem_append.1 hv with h | h
            · exact inv.vis_valid v h
            · exact (hnew v h).1
          · rw [hv']
            rw [List.nodup_append]
            exact ⟨inv.vis_nodup, hnnd, fun v hvv hvn => (hnew v hvn).2.1 hvv⟩
          · intro e he
            rw [hq'] at he
            rw [hv']
            rcases List.mem_append.1 he with h | h
            · exact List.mem_append_left _ (inv.queue_sub e (List.mem_cons_of_mem _ h))
            · obtain ⟨n, hn, rfl⟩ := List.mem_map.1 h
              exact List.mem_append_right _ hn
          · rw [hv']
            intro h
            rcases List.mem_append.1 h with h | h
            · exact inv.goal_unvisited h
            · obtain ⟨-, -, d, hd, heq⟩ := hnew goal h
              exact hng d hd heq.symm
          · rw [hv']
            exact List.mem_append_left _ inv.start_vis
          · rw [hq', hv']
            intro v hv
            rcases List.mem_append.1 hv with hvold | hvnew
            · rcases inv.deq_exp v hvold with ⟨pv, hpv⟩ | hexp
              · rcases List.mem_cons.1 hpv with heq | hmem
                · injection heq with h1 h2
                  subst h1
                  right
                  intro d hd hval
                  exact ⟨hcomp d hd hval, hng d hd⟩
                · exact Or.inl ⟨pv, List.mem_append_left _ hmem⟩
              · right
                intro d hd hval
                obtain ⟨h1, h2⟩ := hexp d hd hval
                exact ⟨List.mem_append_left _ h1, h2⟩
            · left
              exact ⟨p ++ [v], List.mem_append_right _ (List.mem_map.2 ⟨v, hvnew, rfl⟩)⟩
        have hv1200 : v'.length ≤ 1200 :=
          valid_nodup_length_le v' inv'.vis_nodup inv'.vis_valid
        have hq'len : q'.length = rest.length + new.length := by
          rw [hq']
          simp
        have hv'len : v'.length = visited.length + new.length := by
          rw [hv']
          simp
        refine ih q' v' inv' ?_
        rw [hq'len, hv'len]
        rw [hv'len] at hv1200
        simp only [List.length_cons] at hmeas
        omega

/-- On an empty obstacle list, BFS between distinct in-bounds cells succeeds
with a path of exactly `manhattan start goal + 1` cells. -/
theorem find_path_bfs_opt (start goal : Pos)
    (hstart : is_valid_position start = true)
    (hgoal : is_valid_position goal = true)
    (hne : start ≠ goal) :
    ∃ q, find_path_bfs start goal [] = some q ∧
      q.length = manhattan start goal + 1 := by
  unfold find_path_bfs
  rw [if_neg hne]
  refine bfsLoop_opt start goal hstart hgoal searchFuel [(start, [start])] [start] ?_ ?_
  · constructor
    · intro e he
      rw [List.mem_singleton] at he
      subst he
      simp [manhattan_self]
    · simp
    · intro v hv
      rw [List.mem_singleton] at hv
      subst hv
      exact hstart
    · exact List.nodup_singleton _
    · intro e he
      rw [List.mem_singleton] at he
      subst he
      exact List.mem_singleton.2 rfl
    · intro h
      rw [List.mem_singleton] at h
      exact hne h.symm
    · exact List.mem_singleton.2 rfl
    · intro v hv
      rw [List.mem_singleton] at hv
      rw [hv]
      exact Or.inl ⟨[start], List.mem_singleton.2 rfl⟩
  · show 1 + (1200 - 1) ≤ searchFuel
    decide

/-- C1: For every pair of distinct in-bounds positions `start` and `goal`
with an empty obstacle set, `find_path_astar` and `find_path_bfs` both
return a path, the two paths have equal length, and that length is the
Manhattan distance between `start` and `goal`: each path makes exactly
`manhattan start goal` unit steps, so it lists `manhattan start goal + 1`
cells including the start cell (the counting convention of the spec's own
worked example, a six-cell path for distance five). -/
theorem astar_bfs_equal_manhattan (start goal : Pos)
    (hstart : is_valid_position start = true)
    (hgoal : is_valid_position goal = true)
    (hne : start ≠ goal) :
    ∃ p q, find_path_astar start goal [] = some p ∧
      find_path_bfs start goal [] = some q ∧
      p.length = q.length ∧
      p.length = manhattan start goal + 1 := by
  obtain ⟨p, hp, hpl⟩ := find_path_astar_opt start goal hstart hgoal hne
  obtain ⟨q, hq, hql⟩ := find_path_bfs_opt start goal hstart hgoal hne
  exact ⟨p, q, hp, hq, by omega, hpl⟩

/-- Witness for C1 at start (0,0), goal (3,2). -/
theorem astar_bfs_equal_manhattan_witness :
    ∃ p q, find_path_astar (0, 0) (3, 2) [] = some p ∧
      find_path_bfs (0, 0) (3, 2) [] = some q ∧
      p.length = q.length ∧
      p.length = manhattan (0, 0) (3, 2) + 1 :=
  astar_bfs_equal_manhattan (0, 0) (3, 2) (by decide) (by decide) (by decide)

end AiGame
